import Mathlib

/-! Expense tracker: currency normalisation and exchange-rate bookkeeping.

A shallow embedding of the engine inside `src/App.js` (the `App` component):
the rate store (`updateExchangeRate`), the rate resolver (`getExchangeRate`),
the ledger operations (`addExpense`, `deleteExpense`), the aggregator
(`calculateTotalExpense`), the registry operations (`addCurrency`,
`setPrimaryCurrencyHandler`), the conversion handler (`handleConversion`) and
persistence (`saveData`, `loadData`), together with the grouping by day of
`App` (`formatDate`, `groupedExpenses`, `groupedExpensesArray`) and of the
`ExpenseList` component of `src/src/components/expenses.js`.

Conventions of the embedding.

* JavaScript numbers are IEEE doubles.  Here a finite number is an exact
  rational, so rounding, overflow, underflow and the sign of zero are not
  represented; the two infinities and NaN are.  Where the range of doubles
  decides a property, the sums and quotients of the rate store are also given
  with their results brought into that range (`JSNum.inRange`).
* A JavaScript object used as a dictionary is a list of key/value pairs in
  insertion order, with own-property lookup.
* The clock (`Date.now()`, `new Date().toISOString()`) is an argument, and so
  is the `Date` object that reads a date text (time value, local calendar
  day); a UTC calendar serves as a sample of it.  The method `toUpperCase`
  of strings is an argument too.
* A handler runs inside the closure of one render: the state variables it
  reads are those of that render, whatever setters it has called meanwhile.
-/

namespace MoneyTracker

/-! ## Numbers -/

/-- Value held by a numeric field: a finite number, an infinity (`neg` tells
its sign), `NaN`, or `null` (what `JSON.parse` gives back for a number that
`JSON.stringify` could not write). -/
inductive JSNum where
  | fin (q : ℚ)
  | inf (neg : Bool)
  | nan
  | null
  deriving DecidableEq, Repr

namespace JSNum

/-- ToNumber on a numeric field: `null` converts to `0`. -/
def toNumber : JSNum → JSNum
  | null => fin 0
  | x => x

/-- Sum of two Number values (operands already converted by `toNumber`). -/
def addNum : JSNum → JSNum → JSNum
  | fin a, fin b => fin (a + b)
  | fin _, inf s => inf s
  | inf s, fin _ => inf s
  | inf s, inf t => if s = t then inf s else nan
  | _, _ => nan

/-- The `+` operator on numeric operands. -/
def add (x y : JSNum) : JSNum := addNum x.toNumber y.toNumber

/-- Quotient of two Number values (operands already converted by `toNumber`):
a non-zero finite number over zero is an infinity, zero over zero is `NaN`. -/
def divNum : JSNum → JSNum → JSNum
  | fin a, fin b =>
    if b = 0 then (if a = 0 then nan else inf (decide (a < 0))) else fin (a / b)
  | fin _, inf _ => fin 0
  | inf s, fin b => inf (xor s (decide (b < 0)))
  | _, _ => nan

/-- The `/` operator on numeric operands. -/
def div (x y : JSNum) : JSNum := divNum x.toNumber y.toNumber

/-- The global `isNaN` on a Number value. -/
def isNaN (x : JSNum) : Bool := decide (x.toNumber = nan)

/-- The function `parseFloat` applied to a value that is already a Number: the value is
written out and read back, which returns it; `null` reads as `NaN`. -/
def reparse : JSNum → JSNum
  | null => nan
  | x => x

end JSNum

/-! ## Rate store -/

/-- One entry of a rate record's `history`: `{ rate, date }`. -/
structure RateObservation where
  rate : JSNum
  date : String
  deriving DecidableEq, Repr

/-- Value stored under a pair key: `{ rate, history }`. -/
structure RateRecord where
  rate : JSNum
  history : List RateObservation
  deriving DecidableEq, Repr

/-- The `exchangeRates` object: pair key to rate record, in insertion order. -/
abbrev RateStore := List (String × RateRecord)

/-- Property read `obj[key]`: the record under `key`, if there is one. -/
def lookupKey : RateStore → String → Option RateRecord
  | [], _ => none
  | (k, v) :: rest, key => if k = key then some v else lookupKey rest key

/-- Property write `obj[key] = rec`: replaces the value of an existing key in
place, otherwise appends the key. -/
def assignKey : RateStore → String → RateRecord → RateStore
  | [], key, rec => [(key, rec)]
  | (k, v) :: rest, key, rec =>
    if k = key then (k, rec) :: rest else (k, v) :: assignKey rest key rec

/-- The template literal that keys a pair: from-code, underscore, to-code. -/
def rateKey (fromCode toCode : String) : String := fromCode ++ "_" ++ toCode

/-- The function `getExchangeRate(fromCode, toCode)`: identity, direct record, inverse
record, or the default `1`. -/
def getExchangeRate (exchangeRates : RateStore) (fromCode toCode : String) : JSNum :=
  if fromCode = toCode then JSNum.fin 1
  else
    match lookupKey exchangeRates (rateKey fromCode toCode) with
    | some rec => rec.rate
    | none =>
      match lookupKey exchangeRates (rateKey toCode fromCode) with
      | some rec => JSNum.div (JSNum.fin 1) rec.rate
      | none => JSNum.fin 1

/-- The call `history.slice(-n)`: the last `n` elements (all of them if fewer). -/
def sliceLast {α : Type} (n : Nat) (xs : List α) : List α := xs.drop (xs.length - n)

/-- The `reduce` over the recent observations, starting from `0`. -/
def sumRates (recentRates : List RateObservation) : JSNum :=
  recentRates.foldl (fun sum entry => JSNum.add sum entry.rate) (JSNum.fin 0)

/-- The average computed for an existing record: sum of the recent rates over
their number. -/
def avgRate (recentRates : List RateObservation) : JSNum :=
  JSNum.div (sumRates recentRates) (JSNum.fin recentRates.length)

/-- The function `updateExchangeRate(fromCode, toCode, rate)` at clock reading `now`: the
store it returns (and installs as the new `exchangeRates`). -/
def updateExchangeRate (exchangeRates : RateStore) (fromCode toCode : String)
    (rate : JSNum) (now : String) : RateStore :=
  let key := rateKey fromCode toCode
  match lookupKey exchangeRates key with
  | none =>
    assignKey exchangeRates key
      { rate := rate.reparse, history := [{ rate := rate.reparse, date := now }] }
  | some rec =>
    let history := rec.history ++ [{ rate := rate.reparse, date := now }]
    assignKey exchangeRates key
      { rate := avgRate (sliceLast 10 history), history := history }

/-- What the object held by the calling render as `exchangeRates` contains
once `updateExchangeRate` has run.  The copy `{ ...exchangeRates }` is shallow:
a record that already exists is shared and is changed in place (`push`, then
the assignment to `.rate`), whereas a new key is added to the copy only. -/
def closureRatesAfterUpdate (exchangeRates : RateStore) (fromCode toCode : String)
    (rate : JSNum) (now : String) : RateStore :=
  match lookupKey exchangeRates (rateKey fromCode toCode) with
  | none => exchangeRates
  | some _ => updateExchangeRate exchangeRates fromCode toCode rate now

/-! ## parseFloat on text -/

/-- White space and line terminators skipped at the start of the text. -/
def isStrWhiteSpace (c : Char) : Bool :=
  let n := c.toNat
  n = 0x09 || n = 0x0A || n = 0x0B || n = 0x0C || n = 0x0D || n = 0x20 || n = 0xA0 ||
  n = 0x1680 || (0x2000 ≤ n && n ≤ 0x200A) || n = 0x2028 || n = 0x2029 || n = 0x202F ||
  n = 0x205F || n = 0x3000 || n = 0xFEFF

/-- Decimal digit `0`..`9`. -/
def isDecimalDigit (c : Char) : Bool := 48 ≤ c.toNat && c.toNat ≤ 57

/-- Splits off the longest run of decimal digits at the head. -/
def scanDigits : List Char → List Char × List Char
  | [] => ([], [])
  | c :: rest =>
    if isDecimalDigit c then ((c :: (scanDigits rest).1), (scanDigits rest).2)
    else ([], c :: rest)

/-- Value of a run of decimal digits. -/
def digitsValue (ds : List Char) : Nat :=
  ds.foldl (fun n c => 10 * n + (c.toNat - 48)) 0

/-- Ten to an integer power. -/
def pow10 (e : Int) : ℚ :=
  if 0 ≤ e then (10 : ℚ) ^ e.toNat else 1 / (10 : ℚ) ^ (-e).toNat

/-- Exponent denoted by an ExponentPart at the head of the text (`e` or `E`,
an optional sign, at least one digit); `0` when there is none, the mantissa
then being the longest literal. -/
def scanExponent : List Char → Int
  | [] => 0
  | c :: rest =>
    if c = 'e' ∨ c = 'E' then
      match rest with
      | [] => 0
      | d :: more =>
        if d = '+' then Int.ofNat (digitsValue (scanDigits more).1)
        else if d = '-' then
          (if (scanDigits more).1 = [] then 0
           else - Int.ofNat (digitsValue (scanDigits more).1))
        else Int.ofNat (digitsValue (scanDigits (d :: more)).1)
    else 0

/-- The longest prefix that is an unsigned decimal literal, as a number:
`Infinity`, digits with an optional fraction, or a fraction alone, each with
an optional exponent; `NaN` when no prefix is a literal. -/
def parseUnsigned (cs : List Char) : JSNum :=
  if "Infinity".toList.isPrefixOf cs then JSNum.inf false
  else
    let intPart := scanDigits cs
    let fracPart : List Char × List Char :=
      match intPart.2 with
      | [] => ([], [])
      | c :: rest => if c = '.' then scanDigits rest else ([], c :: rest)
    if intPart.1 = [] ∧ fracPart.1 = [] then JSNum.nan
    else
      JSNum.fin
        (((digitsValue intPart.1 : ℚ) + (digitsValue fracPart.1 : ℚ) / 10 ^ fracPart.1.length)
          * pow10 (scanExponent fracPart.2))

/-- Sign flip of a parsed literal. -/
def negate : JSNum → JSNum
  | JSNum.fin q => JSNum.fin (-q)
  | JSNum.inf s => JSNum.inf (!s)
  | x => x

/-- The function `parseFloat` on the characters that follow the leading white space. -/
def parseSigned : List Char → JSNum
  | [] => JSNum.nan
  | c :: rest =>
    if c = '-' then negate (parseUnsigned rest)
    else if c = '+' then parseUnsigned rest
    else parseUnsigned (c :: rest)

/-- The function `parseFloat(text)`. -/
def parseFloat (text : String) : JSNum :=
  parseSigned (text.toList.dropWhile isStrWhiteSpace)

/-! ## Registry, ledger and component state -/

/-- A currency `{ code, symbol, name }`. -/
structure Currency where
  code : String
  symbol : String
  name : String
  deriving DecidableEq, Repr

/-- A category `{ id, name, color }`. -/
structure Category where
  id : Nat
  name : String
  color : String
  deriving DecidableEq, Repr

/-- First element of `CATEGORIES`, to which the form is reset. -/
def firstCategory : Category := { id := 1, name := "Продукты", color := "#FF9800" }

/-- The constant `CATEGORIES`. -/
def CATEGORIES : List Category :=
  [ firstCategory,
    { id := 2, name := "Транспорт", color := "#2196F3" },
    { id := 3, name := "Развлечения", color := "#E91E63" },
    { id := 4, name := "Счета", color := "#4CAF50" },
    { id := 5, name := "Другое", color := "#9C27B0" } ]

/-- The element `DEFAULT_CURRENCIES[0]`. -/
def RUB : Currency := { code := "RUB", symbol := "₽", name := "Российский рубль" }

/-- The element `DEFAULT_CURRENCIES[1]`. -/
def USD : Currency := { code := "USD", symbol := "$", name := "Доллар США" }

/-- The element `DEFAULT_CURRENCIES[2]`. -/
def EUR : Currency := { code := "EUR", symbol := "€", name := "Евро" }

/-- The constant `DEFAULT_CURRENCIES`. -/
def DEFAULT_CURRENCIES : List Currency := [RUB, USD, EUR]

/-- An entry of the ledger. -/
structure Expense where
  id : String
  amount : JSNum
  description : String
  category : Category
  date : String
  currency : Currency
  primaryAmount : JSNum
  deriving DecidableEq, Repr

/-- One reading of the clock: `Date.now()` and `new Date().toISOString()`. -/
structure Clock where
  ms : Nat
  iso : String
  deriving DecidableEq, Repr

/-- The state variables of `App` (the formatted `conversionResult` string,
which only the conversion screen shows, is left out). -/
structure AppState where
  expenses : List Expense
  amount : String
  description : String
  selectedCategory : Category
  modalVisible : Bool
  settingsModalVisible : Bool
  currencyModalVisible : Bool
  conversionModalVisible : Bool
  totalExpense : JSNum
  currencies : List Currency
  primaryCurrency : Currency
  selectedCurrency : Currency
  exchangeRates : RateStore
  newCurrencyCode : String
  newCurrencyName : String
  newCurrencySymbol : String
  fromCurrency : Currency
  toCurrency : Currency
  conversionAmount : String
  conversionRate : String
  deriving DecidableEq, Repr

/-- The initial values given to `useState`. -/
def initialState : AppState :=
  { expenses := [], amount := "", description := "", selectedCategory := firstCategory,
    modalVisible := false, settingsModalVisible := false, currencyModalVisible := false,
    conversionModalVisible := false, totalExpense := JSNum.fin 0,
    currencies := DEFAULT_CURRENCIES, primaryCurrency := RUB, selectedCurrency := RUB,
    exchangeRates := [], newCurrencyCode := "", newCurrencyName := "",
    newCurrencySymbol := "", fromCurrency := RUB, toCurrency := USD,
    conversionAmount := "", conversionRate := "" }

/-! ## Aggregator -/

/-- The callback of the `reduce` in `calculateTotalExpense`. -/
def totalStep (primaryCurrency : Currency) (exchangeRates : RateStore)
    (sum : JSNum) (expense : Expense) : JSNum :=
  if expense.currency.code = primaryCurrency.code then JSNum.add sum expense.amount
  else
    JSNum.add sum
      (JSNum.div expense.amount
        (getExchangeRate exchangeRates expense.currency.code primaryCurrency.code))

/-- The function `calculateTotalExpense()`: the value it passes to `setTotalExpense`. -/
def calculateTotalExpense (expenses : List Expense) (primaryCurrency : Currency)
    (exchangeRates : RateStore) : JSNum :=
  expenses.foldl (totalStep primaryCurrency exchangeRates) (JSNum.fin 0)

/-- The effect `useEffect(calculateTotalExpense, [expenses, primaryCurrency])`
after a render of state `s`: it runs only when one of its two dependencies
has changed identity, and then stores the total computed from `s`. -/
def runTotalEffect (depsChanged : Bool) (s : AppState) : AppState :=
  if depsChanged then
    { s with totalExpense := calculateTotalExpense s.expenses s.primaryCurrency s.exchangeRates }
  else s

/-! ## Persistence -/

/-- The persisted object as `JSON.parse` returns it.  A top-level field is
`none` when it is missing or falsy. -/
structure Blob where
  expenses : Option (List Expense)
  currencies : Option (List Currency)
  primaryCurrency : Option Currency
  exchangeRates : Option RateStore
  deriving DecidableEq, Repr

/-- A number as it comes back from `JSON.stringify` then `JSON.parse`: the
infinities and `NaN` are written as `null`. -/
def jsonNumber : JSNum → JSNum
  | JSNum.fin q => JSNum.fin q
  | _ => JSNum.null

/-- An expense through JSON. -/
def jsonExpense (e : Expense) : Expense :=
  { e with amount := jsonNumber e.amount, primaryAmount := jsonNumber e.primaryAmount }

/-- A rate observation through JSON. -/
def jsonObservation (o : RateObservation) : RateObservation :=
  { o with rate := jsonNumber o.rate }

/-- A rate record through JSON. -/
def jsonRecord (r : RateRecord) : RateRecord :=
  { rate := jsonNumber r.rate, history := r.history.map jsonObservation }

/-- The rate store through JSON. -/
def jsonRates (rates : RateStore) : RateStore :=
  rates.map (fun p => (p.1, jsonRecord p.2))

/-- The function `saveData()` called from a handler of the render whose state is `s`: the
object it serialises and hands to `AsyncStorage.setItem`, as it reads back. -/
def saveData (s : AppState) : Blob :=
  { expenses := some (s.expenses.map jsonExpense),
    currencies := some s.currencies,
    primaryCurrency := some s.primaryCurrency,
    exchangeRates := some (jsonRates s.exchangeRates) }

/-- The function `loadData()`: the four setter calls, given what `AsyncStorage.getItem`
returned (`none` when nothing is stored). -/
def loadData (s : AppState) (savedData : Option Blob) : AppState :=
  match savedData with
  | none => s
  | some data =>
    { s with
      expenses := data.expenses.getD [],
      currencies := data.currencies.getD DEFAULT_CURRENCIES,
      primaryCurrency := data.primaryCurrency.getD RUB,
      exchangeRates := data.exchangeRates.getD [] }

/-! ## Handlers -/

/-- Result of a handler: the state of the next render (setters applied, the
total effect flushed) and what the handler handed to persistence, if it
called `saveData`. -/
structure Outcome where
  state : AppState
  saved : Option Blob
  deriving DecidableEq, Repr

/-- The guard of `addExpense`: a non-empty text whose `parseFloat` is not NaN. -/
def amountAccepted (amount : String) : Bool :=
  amount ≠ "" && !(parseFloat amount).isNaN

/-- The object `newExpense` built by `addExpense`. -/
def newExpense (s : AppState) (clock : Clock) : Expense :=
  { id := Nat.repr clock.ms,
    amount := parseFloat s.amount,
    description := s.description,
    category := s.selectedCategory,
    date := clock.iso,
    currency := s.selectedCurrency,
    primaryAmount :=
      if s.selectedCurrency.code = s.primaryCurrency.code then parseFloat s.amount
      else
        JSNum.div (parseFloat s.amount)
          (getExchangeRate s.exchangeRates s.selectedCurrency.code s.primaryCurrency.code) }

/-- The handler `addExpense()`. -/
def addExpense (s : AppState) (clock : Clock) : Outcome :=
  if amountAccepted s.amount then
    { state :=
        runTotalEffect true
          { s with
            expenses := s.expenses ++ [newExpense s clock],
            amount := "", description := "", selectedCategory := firstCategory,
            selectedCurrency := s.primaryCurrency, modalVisible := false },
      saved := some (saveData s) }
  else { state := s, saved := none }

/-- The handler `deleteExpense(id)`. -/
def deleteExpense (s : AppState) (id : String) : Outcome :=
  { state :=
      runTotalEffect true
        { s with expenses := s.expenses.filter (fun expense => decide (expense.id ≠ id)) },
    saved := some (saveData s) }

/-- A sample of the method `toUpperCase()` of the platform, which is an
argument of `addCurrency`: the letters `a`..`z` are raised and every other
character is kept, as the platform does on texts of ASCII characters. -/
def asciiUpperCase (text : String) : String := String.mk (text.toList.map Char.toUpper)

/-- The handler `addCurrency()`; `toUpperCase` is the method of that name of
the platform's strings. -/
def addCurrency (toUpperCase : String → String) (s : AppState) : Outcome :=
  if s.newCurrencyCode ≠ "" ∧ s.newCurrencySymbol ≠ "" ∧ s.newCurrencyName ≠ "" then
    { state :=
        runTotalEffect false
          { s with
            currencies :=
              s.currencies ++
                [{ code := toUpperCase s.newCurrencyCode, symbol := s.newCurrencySymbol,
                   name := s.newCurrencyName }],
            newCurrencyCode := "", newCurrencySymbol := "", newCurrencyName := "" },
      saved := some (saveData s) }
  else { state := s, saved := none }

/-- The handler `setPrimaryCurrencyHandler(currency)`.  `sameObject` tells whether the
argument is the very object already held as `primaryCurrency`, in which case
the dependency of the total effect has not changed. -/
def setPrimaryCurrencyHandler (s : AppState) (currency : Currency) (sameObject : Bool) :
    Outcome :=
  { state :=
      runTotalEffect (!sameObject)
        { s with primaryCurrency := currency, settingsModalVisible := false },
    saved := some (saveData s) }

/-- The guard of `handleConversion`. -/
def conversionAccepted (s : AppState) : Bool :=
  s.conversionAmount ≠ "" && s.conversionRate ≠ "" &&
    !(parseFloat s.conversionAmount).isNaN && !(parseFloat s.conversionRate).isNaN

/-- The handler `handleConversion()`: records the entered rate for the selected pair. -/
def handleConversion (s : AppState) (clock : Clock) : Outcome :=
  if conversionAccepted s then
    { state :=
        runTotalEffect false
          { s with
            exchangeRates :=
              updateExchangeRate s.exchangeRates s.fromCurrency.code s.toCurrency.code
                (parseFloat s.conversionRate) clock.iso },
      saved :=
        some
          (saveData
            { s with
              exchangeRates :=
                closureRatesAfterUpdate s.exchangeRates s.fromCurrency.code
                  s.toCurrency.code (parseFloat s.conversionRate) clock.iso }) }
  else { state := s, saved := none }

/-! ## Sequences of calls and the specification's words -/

/-- One call `updateExchangeRate(fromCode, toCode, rate)` made at clock
reading `now`. -/
structure RateCall where
  fromCode : String
  toCode : String
  rate : JSNum
  now : String
  deriving DecidableEq, Repr

/-- The store after a sequence of `updateExchangeRate` calls, each made on the
store the previous one installed. -/
def recordCalls (exchangeRates : RateStore) (calls : List RateCall) : RateStore :=
  calls.foldl (fun st c => updateExchangeRate st c.fromCode c.toCode c.rate c.now)
    exchangeRates

/-- Successive calls for one pair: each observation is a finite rate with the
clock reading of its call. -/
def callsForPair (fromCode toCode : String) (obs : List (ℚ × String)) : List RateCall :=
  obs.map (fun o => { fromCode := fromCode, toCode := toCode, rate := JSNum.fin o.1, now := o.2 })

/-- Arithmetic mean of the last ten of the given rates (of all of them when
there are fewer than ten), in the words of the specification. -/
def meanOfLastTen (rates : List ℚ) : ℚ :=
  (sliceLast 10 rates).sum / ((sliceLast 10 rates).length : ℚ)

/-- Sum of a list of numbers, first element outermost. -/
def sumNumbers : List JSNum → JSNum
  | [] => JSNum.fin 0
  | x :: rest => JSNum.add x (sumNumbers rest)

/-- The contribution of one entry to the total, in the words of the
specification: its amount when its currency is the primary one, otherwise its
amount over the resolved rate. -/
def amountInPrimary (primaryCurrency : Currency) (exchangeRates : RateStore)
    (expense : Expense) : JSNum :=
  if expense.currency.code = primaryCurrency.code then expense.amount
  else
    JSNum.div expense.amount
      (getExchangeRate exchangeRates expense.currency.code primaryCurrency.code)

/-- The total in the words of the specification: the sum over all ledger
entries of their contribution. -/
def totalInPrimary (expenses : List Expense) (primaryCurrency : Currency)
    (exchangeRates : RateStore) : JSNum :=
  sumNumbers (expenses.map (amountInPrimary primaryCurrency exchangeRates))

/-- The displayed total of a state is the total of its current ledger,
primary currency and rate store. -/
def totalIsCurrent (s : AppState) : Prop :=
  s.totalExpense = calculateTotalExpense s.expenses s.primaryCurrency s.exchangeRates

instance (s : AppState) : Decidable (totalIsCurrent s) := by
  unfold totalIsCurrent
  infer_instance

/-! ## Sample data -/

/-- Eleven observations with the rates `1, 2, .., 11`. -/
def elevenObservations : List (ℚ × String) :=
  [(1, "t1"), (2, "t2"), (3, "t3"), (4, "t4"), (5, "t5"), (6, "t6"), (7, "t7"), (8, "t8"),
   (9, "t9"), (10, "t10"), (11, "t11")]

/-- A reading of the clock. -/
def sampleClock : Clock := { ms := 1714650000000, iso := "2024-05-02T11:40:00.000Z" }

/-- A store with one record: one dollar is half a rouble. -/
def dollarStore : RateStore :=
  [("USD_RUB", { rate := JSNum.fin (1 / 2),
                 history := [{ rate := JSNum.fin (1 / 2), date := "2024-05-01T09:00:00.000Z" }] })]

/-- An expense of the given amount in the given currency. -/
def sampleExpense (id : String) (amount : JSNum) (currency : Currency) : Expense :=
  { id := id, amount := amount, description := "", category := firstCategory,
    date := "2024-05-02T11:40:00.000Z", currency := currency, primaryAmount := amount }

/-- The form of the initial state filled with the amount `50` in dollars,
with `dollarStore` as the rate store. -/
def dollarForm : AppState :=
  { initialState with amount := "50", selectedCurrency := USD, exchangeRates := dollarStore }

/-- A state whose ledger holds one expense of 50 dollars, with no rate known
(so the displayed total is 50 roubles at parity), and whose conversion form
is filled to record that one dollar is half a rouble. -/
def conversionForm : AppState :=
  { initialState with
    expenses := [sampleExpense "1" (JSNum.fin 50) USD],
    totalExpense := JSNum.fin 50,
    fromCurrency := USD, toCurrency := RUB,
    conversionAmount := "1", conversionRate := "0.5" }

/-- A state whose ledger holds three expenses and whose store holds a rate
record, with the three forms filled: 50 dollars to add, the rate 0.5 from
dollar to rouble to record, the pound to add to the registry. -/
def busyState : AppState :=
  { initialState with
    expenses :=
      [sampleExpense "1714650000000" (JSNum.fin 10) RUB,
       sampleExpense "1714650000001" (JSNum.fin 20) USD,
       sampleExpense "1714650000002" (JSNum.fin 30) RUB],
    amount := "50", selectedCurrency := USD, exchangeRates := dollarStore,
    fromCurrency := USD, toCurrency := RUB, conversionAmount := "1", conversionRate := "0.5",
    newCurrencyCode := "gbp", newCurrencySymbol := "£", newCurrencyName := "Pound" }

/-- The form of the initial state filled with the amount text `Infinity`. -/
def infinityForm : AppState := { initialState with amount := "Infinity" }

/-- A ledger in which two entries carry the same id. -/
def twinLedger : AppState :=
  { initialState with
    expenses :=
      [sampleExpense "1714650000000" (JSNum.fin 10) RUB,
       sampleExpense "1714650000000" (JSNum.fin 20) RUB,
       sampleExpense "1714650000001" (JSNum.fin 30) RUB] }

/-! ## Numbers that JSON can write -/

/-- A number that `JSON.stringify` writes as it is: not an infinity, not NaN. -/
def JSNum.writable : JSNum → Bool
  | JSNum.fin _ => true
  | JSNum.null => true
  | _ => false

/-- No amount, primary amount or rate of the state is an infinity or NaN. -/
def writableState (s : AppState) : Prop :=
  (∀ e ∈ s.expenses, e.amount.writable = true ∧ e.primaryAmount.writable = true) ∧
  (∀ p ∈ s.exchangeRates,
    p.2.rate.writable = true ∧ ∀ o ∈ p.2.history, o.rate.writable = true)

instance (s : AppState) : Decidable (writableState s) := by
  unfold writableState
  infer_instance

/-! ## Products, positive rates and sequences of registry calls -/

/-- Product of two Number values (operands already converted by `toNumber`):
an infinity times zero is `NaN`. -/
def JSNum.mulNum : JSNum → JSNum → JSNum
  | JSNum.fin a, JSNum.fin b => JSNum.fin (a * b)
  | JSNum.fin a, JSNum.inf s => if a = 0 then JSNum.nan else JSNum.inf (xor s (decide (a < 0)))
  | JSNum.inf s, JSNum.fin b => if b = 0 then JSNum.nan else JSNum.inf (xor s (decide (b < 0)))
  | JSNum.inf s, JSNum.inf t => JSNum.inf (xor s t)
  | _, _ => JSNum.nan

/-- The `*` operator on numeric operands. -/
def JSNum.mul (x y : JSNum) : JSNum := JSNum.mulNum x.toNumber y.toNumber

/-- A positive real: a finite number greater than zero. -/
def JSNum.isPositive : JSNum → Prop
  | JSNum.fin q => 0 < q
  | _ => False

instance (x : JSNum) : Decidable x.isPositive := by
  cases x <;> unfold JSNum.isPositive <;> infer_instance

/-- Magnitude from which a result is an infinity in doubles: the largest
double plus half a unit in its last place. -/
def overflowBound : ℚ := 2 ^ 1024 - 2 ^ 970

/-- Magnitude up to which a result is zero in doubles: half the smallest
positive double. -/
def underflowBound : ℚ := 1 / 2 ^ 1075

/-- A result brought into the range of doubles: too large a magnitude gives
an infinity, too small a magnitude gives zero (rounding inside the range is
not represented). -/
def JSNum.inRange : JSNum → JSNum
  | JSNum.fin q =>
    if overflowBound ≤ |q| then JSNum.inf (decide (q < 0))
    else if |q| ≤ underflowBound then JSNum.fin 0
    else JSNum.fin q
  | x => x

/-- The `reduce` of `updateExchangeRate`, each sum being brought into the
range of doubles. -/
def sumRatesInRange (recentRates : List RateObservation) : JSNum :=
  recentRates.foldl (fun sum entry => (JSNum.add sum entry.rate).inRange) (JSNum.fin 0)

/-- The average of `updateExchangeRate`, sums and quotient being brought into
the range of doubles. -/
def avgRateInRange (recentRates : List RateObservation) : JSNum :=
  (JSNum.div (sumRatesInRange recentRates) (JSNum.fin recentRates.length)).inRange

/-- The function `updateExchangeRate(fromCode, toCode, rate)` with its sums
and its quotient brought into the range of doubles. -/
def updateExchangeRateInRange (exchangeRates : RateStore) (fromCode toCode : String)
    (rate : JSNum) (now : String) : RateStore :=
  let key := rateKey fromCode toCode
  match lookupKey exchangeRates key with
  | none =>
    assignKey exchangeRates key
      { rate := rate.reparse, history := [{ rate := rate.reparse, date := now }] }
  | some rec =>
    let history := rec.history ++ [{ rate := rate.reparse, date := now }]
    assignKey exchangeRates key
      { rate := avgRateInRange (sliceLast 10 history), history := history }

/-- The function `getExchangeRate(fromCode, toCode)` with its quotient brought
into the range of doubles. -/
def getExchangeRateInRange (exchangeRates : RateStore) (fromCode toCode : String) : JSNum :=
  if fromCode = toCode then JSNum.fin 1
  else
    match lookupKey exchangeRates (rateKey fromCode toCode) with
    | some rec => rec.rate
    | none =>
      match lookupKey exchangeRates (rateKey toCode fromCode) with
      | some rec => (JSNum.div (JSNum.fin 1) rec.rate).inRange
      | none => JSNum.fin 1

/-- The store after a sequence of `updateExchangeRate` calls, sums and
quotients being brought into the range of doubles. -/
def recordCallsInRange (exchangeRates : RateStore) (calls : List RateCall) : RateStore :=
  calls.foldl (fun st c => updateExchangeRateInRange st c.fromCode c.toCode c.rate c.now)
    exchangeRates

/-- Smallest rate of the bounded range, `1e-307`. -/
def rateLow : ℚ := 1 / 10 ^ 307

/-- Largest rate of the bounded range, `1e307`. -/
def rateHigh : ℚ := 10 ^ 307

/-- A finite number between `1e-307` and `1e307`. -/
def JSNum.withinBounds : JSNum → Prop
  | JSNum.fin q => rateLow ≤ q ∧ q ≤ rateHigh
  | _ => False

instance (x : JSNum) : Decidable x.withinBounds := by
  cases x <;> unfold JSNum.withinBounds <;> infer_instance

/-- Every record of the store has a rate within the bounds and a history of
rates within the bounds. -/
def boundedStore (exchangeRates : RateStore) : Prop :=
  ∀ (key : String) (rec : RateRecord), lookupKey exchangeRates key = some rec →
    rec.rate.withinBounds ∧ ∀ o ∈ rec.history, o.rate.withinBounds

/-- The store after one recording of the rate `1e-320` from dollar to rouble. -/
def tinyRateStore : RateStore :=
  recordCallsInRange []
    [{ fromCode := "USD", toCode := "RUB", rate := JSNum.fin (1 / 10 ^ 320), now := "t1" }]

/-- Two recordings of the rate `1e308` from dollar to rouble. -/
def hugeCalls : List RateCall :=
  [{ fromCode := "USD", toCode := "RUB", rate := JSNum.fin (10 ^ 308), now := "t1" },
   { fromCode := "USD", toCode := "RUB", rate := JSNum.fin (10 ^ 308), now := "t2" }]

/-- Two recordings, dollar to rouble at `2` and rouble to euro at `4`. -/
def twoCalls : List RateCall :=
  [{ fromCode := "USD", toCode := "RUB", rate := JSNum.fin 2, now := "t1" },
   { fromCode := "RUB", toCode := "EUR", rate := JSNum.fin 4, now := "t2" }]

/-- What is typed into the three fields of the add-currency form. -/
structure CurrencyInput where
  code : String
  symbol : String
  name : String
  deriving DecidableEq, Repr

/-- The guard of `addCurrency` on the three fields. -/
def CurrencyInput.accepted (input : CurrencyInput) : Bool :=
  input.code ≠ "" && input.symbol ≠ "" && input.name ≠ ""

/-- The state after the form is filled with `input` and `addCurrency` runs. -/
def addCurrencyWith (toUpperCase : String → String) (s : AppState)
    (input : CurrencyInput) : AppState :=
  (addCurrency toUpperCase
    { s with newCurrencyCode := input.code, newCurrencySymbol := input.symbol,
             newCurrencyName := input.name }).state

/-- The state after a sequence of `addCurrency` calls. -/
def addCurrencies (toUpperCase : String → String) (s : AppState)
    (inputs : List CurrencyInput) : AppState :=
  inputs.foldl (addCurrencyWith toUpperCase) s

/-- A store whose only record has an infinite rate, as `handleConversion`
records it for the rate text `Infinity`. -/
def infiniteRateStore : RateStore :=
  updateExchangeRate [] "USD" "RUB" (parseFloat "Infinity") "2024-05-01T09:00:00.000Z"

/-! ## Dates and grouping by day -/

/-- What `getFullYear()`, `getMonth()` (from `0`) and `getDate()` return for a
valid date, in the time zone of the device. -/
structure CalendarDay where
  year : Int
  month : Nat
  day : Nat
  deriving DecidableEq, Repr

/-- One calendar day comes earlier than another. -/
def CalendarDay.before (a b : CalendarDay) : Prop :=
  a.year < b.year ∨
    (a.year = b.year ∧ (a.month < b.month ∨ (a.month = b.month ∧ a.day < b.day)))

instance (a b : CalendarDay) : Decidable (a.before b) := by
  unfold CalendarDay.before
  infer_instance

/-- The `Date` object of the platform: the time value of `new Date(text)` in
milliseconds (`none` for an invalid date, whose time value is NaN), and the
calendar day of a time value in the time zone of the device. -/
structure DateApi where
  getTime : String → Option Int
  calendarDay : Int → CalendarDay

/-- An integer written in a template literal: decimal digits, with a minus
sign in front when negative. -/
def numberText (i : Int) : String :=
  if i < 0 then "-" ++ Nat.repr i.natAbs else Nat.repr i.natAbs

/-- The function `formatDate(dateString)` of `App`: day, month and year
separated by dots; the three numbers of an invalid date are NaN. -/
def formatDate (api : DateApi) (dateString : String) : String :=
  match api.getTime dateString with
  | none => "NaN.NaN.NaN"
  | some t =>
    Nat.repr (api.calendarDay t).day ++ "." ++ Nat.repr ((api.calendarDay t).month + 1) ++ "."
      ++ numberText (api.calendarDay t).year

/-- The object built by the grouping `reduce`: label to entries, in insertion
order of the labels. -/
abbrev Groups := List (String × List Expense)

/-- The callback of the grouping `reduce`: the expense is pushed to the array
under its label, which is created empty first when the label is new. -/
def addToGroup : Groups → String → Expense → Groups
  | [], date, expense => [(date, [expense])]
  | (k, v) :: rest, date, expense =>
    if k = date then (k, v ++ [expense]) :: rest
    else (k, v) :: addToGroup rest date expense

/-- The constant `groupedExpenses` of `App`. -/
def groupedExpenses (api : DateApi) (expenses : List Expense) : Groups :=
  expenses.foldl (fun groups expense => addToGroup groups (formatDate api expense.date) expense)
    []

/-- An element `{ date, data }` of `groupedExpensesArray`. -/
structure DateGroup where
  date : String
  data : List Expense
  deriving DecidableEq, Repr

/-- Time value of `new Date(group.data[0].date)`; `none` stands for NaN. -/
def firstTime (api : DateApi) (g : DateGroup) : Option Int :=
  match g.data with
  | [] => none
  | expense :: _ => api.getTime expense.date

/-- The comparator `(a, b) => new Date(b.data[0].date) - new Date(a.data[0].date)`;
a NaN result counts as `0` for `sort`. -/
def compareGroups (api : DateApi) (a b : DateGroup) : Int :=
  match firstTime api b, firstTime api a with
  | some tb, some ta => tb - ta
  | _, _ => 0

/-- The comparator does not ask for `a` to come after `b`. -/
def notAfter (api : DateApi) (a b : DateGroup) : Prop := compareGroups api a b ≤ 0

instance (api : DateApi) : DecidableRel (notAfter api) := fun a b => by
  unfold notAfter
  infer_instance

/-- The constant `groupedExpensesArray` of `App`: one element per key of
`groupedExpenses`, then `sort` with the comparator.  `sort` is stable; it is
rendered by insertion from the right, which gives the stable order whenever
the comparator is consistent. -/
def groupedExpensesArray (api : DateApi) (expenses : List Expense) : List DateGroup :=
  ((groupedExpenses api expenses).map (fun p => ({ date := p.1, data := p.2 } : DateGroup))).insertionSort
    (notAfter api)

/-- Time value of the date of an expense (`0` when the date is invalid). -/
def timeOf (api : DateApi) (expense : Expense) : Int := (api.getTime expense.date).getD 0

/-- Calendar day of the date of an expense. -/
def dayOf (api : DateApi) (expense : Expense) : CalendarDay := api.calendarDay (timeOf api expense)

/-- Every date of the ledger is a valid date. -/
def validDates (api : DateApi) (expenses : List Expense) : Prop :=
  ∀ e ∈ expenses, (api.getTime e.date).isSome = true

instance (api : DateApi) (expenses : List Expense) : Decidable (validDates api expenses) := by
  unfold validDates
  infer_instance

/-- On the dates of the ledger, a later instant never falls on an earlier
calendar day. -/
def calendarMonotoneOn (api : DateApi) (expenses : List Expense) : Prop :=
  ∀ e1 ∈ expenses, ∀ e2 ∈ expenses,
    timeOf api e1 ≤ timeOf api e2 → ¬ (dayOf api e2).before (dayOf api e1)

instance (api : DateApi) (expenses : List Expense) :
    Decidable (calendarMonotoneOn api expenses) := by
  unfold calendarMonotoneOn
  infer_instance

namespace ExpenseList

/-- The function `formatDate(dateString)` of the `ExpenseList` component.  Its
return value is written between single quotes, so it is that text itself,
placeholders included, whatever the date. -/
def formatDate (_dateString : String) : String :=
  "$\x7bdate.getDate()\x7d.$\x7bdate.getMonth() + 1\x7d.$\x7bdate.getFullYear()\x7d"

/-- The constant `groupedExpenses` of the `ExpenseList` component. -/
def groupedExpenses (expenses : List Expense) : Groups :=
  expenses.foldl (fun groups expense => addToGroup groups (formatDate expense.date) expense) []

/-- An element `{ date, expenses }` of the component's `groupedExpensesArray`. -/
structure LabelGroup where
  date : String
  expenses : List Expense
  deriving DecidableEq, Repr

/-- The comparator `(a, b) => new Date(b.date) - new Date(a.date)`, which reads
the labels as dates; a NaN result counts as `0` for `sort`. -/
def compareGroups (api : DateApi) (a b : LabelGroup) : Int :=
  match api.getTime b.date, api.getTime a.date with
  | some tb, some ta => tb - ta
  | _, _ => 0

/-- The comparator does not ask for `a` to come after `b`. -/
def notAfter (api : DateApi) (a b : LabelGroup) : Prop := compareGroups api a b ≤ 0

instance (api : DateApi) : DecidableRel (notAfter api) := fun a b => by
  unfold notAfter
  infer_instance

/-- The constant `groupedExpensesArray` of the `ExpenseList` component. -/
def groupedExpensesArray (api : DateApi) (expenses : List Expense) : List LabelGroup :=
  ((groupedExpenses expenses).map
      (fun p => ({ date := p.1, expenses := p.2 } : LabelGroup))).insertionSort
    (notAfter api)

end ExpenseList

/-! ## A sample platform: the UTC calendar on texts written by `toISOString` -/

/-- Days from 1 January 1970 to the given day of the proleptic Gregorian
calendar (`month` from `1`). -/
def daysFromCivil (year : Int) (month day : Nat) : Int :=
  let y : Int := if month ≤ 2 then year - 1 else year
  let era : Int := Int.fdiv y 400
  let yoe : Int := y - era * 400
  let mp : Int := if month ≤ 2 then (month : Int) + 9 else (month : Int) - 3
  let doy : Int := Int.fdiv (153 * mp + 2) 5 + (day : Int) - 1
  let doe : Int := yoe * 365 + Int.fdiv yoe 4 - Int.fdiv yoe 100 + doy
  era * 146097 + doe - 719468

/-- The calendar day that lies the given number of days after 1 January 1970. -/
def civilFromDays (days : Int) : CalendarDay :=
  let z : Int := days + 719468
  let era : Int := Int.fdiv z 146097
  let doe : Int := z - era * 146097
  let yoe : Int :=
    Int.fdiv (doe - Int.fdiv doe 1460 + Int.fdiv doe 36524 - Int.fdiv doe 146096) 365
  let doy : Int := doe - (365 * yoe + Int.fdiv yoe 4 - Int.fdiv yoe 100)
  let mp : Int := Int.fdiv (5 * doy + 2) 153
  let d : Int := doy - Int.fdiv (153 * mp + 2) 5 + 1
  let m : Int := if mp < 10 then mp + 3 else mp - 9
  { year := (yoe + era * 400) + (if m ≤ 2 then 1 else 0),
    month := (m - 1).toNat,
    day := d.toNat }

/-- Value of a run of characters that are all decimal digits. -/
def digitsOnly (cs : List Char) : Option Nat :=
  if cs.all isDecimalDigit then some (digitsValue cs) else none

/-- Time value of a text of the form `YYYY-MM-DDTHH:mm:ss.sssZ`, the form
`toISOString` writes; any other text is taken as an invalid date. -/
def isoTime (text : String) : Option Int :=
  match text.toList with
  | [y1, y2, y3, y4, c1, m1, m2, c2, d1, d2, c3, h1, h2, c4, n1, n2, c5, s1, s2, c6, f1, f2, f3,
      c7] =>
    if c1 = '-' ∧ c2 = '-' ∧ c3 = 'T' ∧ c4 = ':' ∧ c5 = ':' ∧ c6 = '.' ∧ c7 = 'Z' then
      match digitsOnly [y1, y2, y3, y4], digitsOnly [m1, m2], digitsOnly [d1, d2],
        digitsOnly [h1, h2], digitsOnly [n1, n2], digitsOnly [s1, s2], digitsOnly [f1, f2, f3] with
      | some y, some m, some d, some h, some n, some sec, some ms =>
        some (daysFromCivil (y : Int) m d * 86400000 + (h : Int) * 3600000 + (n : Int) * 60000
          + (sec : Int) * 1000 + (ms : Int))
      | _, _, _, _, _, _, _ => none
    else none
  | _ => none

/-- The `Date` object of a device set to UTC. -/
def utcApi : DateApi :=
  { getTime := isoTime,
    calendarDay := fun t => civilFromDays (Int.fdiv t 86400000) }

/-- A ledger of three expenses: one on 1 May 2024, then two on 2 May 2024. -/
def mayLedger : List Expense :=
  [{ sampleExpense "1714554000000" (JSNum.fin 10) RUB with date := "2024-05-01T09:00:00.000Z" },
   { sampleExpense "1714640400000" (JSNum.fin 20) RUB with date := "2024-05-02T09:00:00.000Z" },
   { sampleExpense "1714650000000" (JSNum.fin 30) RUB with date := "2024-05-02T11:40:00.000Z" }]

/-! ## Auxiliary notions for the grouping -/

/-- The entries recorded under a label, if the label is a key. -/
def lookupGroup : Groups → String → Option (List Expense)
  | [], _ => none
  | (k, v) :: rest, key => if k = key then some v else lookupGroup rest key

/-- Groups whose first member has a later time value come first (the time
value of a missing or invalid first date counting as `0`). -/
def laterFirst (api : DateApi) (a b : DateGroup) : Prop :=
  (firstTime api b).getD 0 ≤ (firstTime api a).getD 0

instance (api : DateApi) : DecidableRel (laterFirst api) := fun a b => by
  unfold laterFirst
  infer_instance

instance (api : DateApi) : IsTotal DateGroup (laterFirst api) :=
  ⟨fun a b => by
    unfold laterFirst
    exact le_total _ _⟩

instance (api : DateApi) : IsTrans DateGroup (laterFirst api) :=
  ⟨fun a b c hab hbc => by
    unfold laterFirst at *
    exact le_trans hbc hab⟩

/-! ## Basic facts about the store -/

theorem lookupKey_assignKey (rates : RateStore) (key key2 : String) (rec : RateRecord) :
    lookupKey (assignKey rates key rec) key2 =
      if key = key2 then some rec else lookupKey rates key2 := by
  induction rates with
  | nil =>
    simp [assignKey, lookupKey]
  | cons p rest ih =>
    obtain ⟨k, v⟩ := p
    by_cases hk : k = key
    · subst hk
      by_cases hk2 : k = key2 <;> simp [assignKey, lookupKey, hk2]
    · by_cases hk2 : k = key2
      · subst hk2
        have : ¬ key = k := fun h => hk h.symm
        simp [assignKey, lookupKey, hk, this]
      · simp [assignKey, lookupKey, hk, hk2, ih]

theorem lookupKey_assignKey_same (rates : RateStore) (key : String) (rec : RateRecord) :
    lookupKey (assignKey rates key rec) key = some rec := by
  simp [lookupKey_assignKey]

theorem lookupKey_assignKey_other (rates : RateStore) (key key2 : String) (rec : RateRecord)
    (h : key ≠ key2) : lookupKey (assignKey rates key rec) key2 = lookupKey rates key2 := by
  simp [lookupKey_assignKey, h]


/-! ## Arithmetic on numbers -/

namespace JSNum

@[simp] theorem add_fin_fin (a b : ℚ) : add (fin a) (fin b) = fin (a + b) := rfl

theorem div_fin_fin (a b : ℚ) (hb : b ≠ 0) : div (fin a) (fin b) = fin (a / b) := by
  simp [div, divNum, toNumber, hb]

theorem reparse_fin (q : ℚ) : reparse (fin q) = fin q := rfl

end JSNum

/-! ## The mean kept by a rate record -/

theorem sliceLast_map {α β : Type} (f : α → β) (n : Nat) (xs : List α) :
    sliceLast n (xs.map f) = (sliceLast n xs).map f := by
  simp [sliceLast, List.map_drop]

theorem sliceLast_ne_nil {α : Type} (n : Nat) (xs : List α) (hn : 0 < n) (hx : xs ≠ []) :
    sliceLast n xs ≠ [] := by
  intro h
  have hlen : (sliceLast n xs).length = 0 := by rw [h]; rfl
  have hpos : 0 < xs.length := List.length_pos.mpr hx
  simp only [sliceLast, List.length_drop] at hlen
  omega

theorem foldl_add_fin (qs : List (ℚ × String)) (a : ℚ) :
    (qs.map (fun o => ({ rate := JSNum.fin o.1, date := o.2 } : RateObservation))).foldl
        (fun sum entry => JSNum.add sum entry.rate) (JSNum.fin a)
      = JSNum.fin (a + (qs.map Prod.fst).sum) := by
  induction qs generalizing a with
  | nil => simp
  | cons o rest ih =>
    simp only [List.map_cons, List.foldl_cons, JSNum.add_fin_fin, List.sum_cons]
    rw [ih]
    congr 1
    ring

/-- Observations written for a list of finite rates. -/
theorem sumRates_finite (qs : List (ℚ × String)) :
    sumRates (qs.map (fun o => ({ rate := JSNum.fin o.1, date := o.2 } : RateObservation)))
      = JSNum.fin ((qs.map Prod.fst).sum) := by
  unfold sumRates
  rw [foldl_add_fin]
  simp

theorem avgRate_finite (qs : List (ℚ × String)) (h : qs ≠ []) :
    avgRate (qs.map (fun o => ({ rate := JSNum.fin o.1, date := o.2 } : RateObservation)))
      = JSNum.fin ((qs.map Prod.fst).sum / ((qs.map Prod.fst).length : ℚ)) := by
  unfold avgRate
  rw [sumRates_finite, JSNum.div_fin_fin]
  · simp
  · have : 0 < qs.length := List.length_pos.mpr h
    simp only [List.length_map, ne_eq, Nat.cast_eq_zero]
    omega

/-- The record kept for a pair after at least one call on it, starting from a
store without the key: the history lists every observation and the rate is
the mean of the last ten. -/
theorem recordCalls_pair_record (fromCode toCode : String) (obs : List (ℚ × String))
    (hobs : obs ≠ []) (exchangeRates : RateStore)
    (hnew : lookupKey exchangeRates (rateKey fromCode toCode) = none) :
    lookupKey (recordCalls exchangeRates (callsForPair fromCode toCode obs))
        (rateKey fromCode toCode)
      = some
          { rate := JSNum.fin (meanOfLastTen (obs.map Prod.fst)),
            history :=
              obs.map (fun o => ({ rate := JSNum.fin o.1, date := o.2 } : RateObservation)) } := by
  induction obs using List.reverseRecOn with
  | nil => exact absurd rfl hobs
  | append_singleton init last ih =>
    have hstep :
        recordCalls exchangeRates (callsForPair fromCode toCode (init ++ [last]))
          = updateExchangeRate (recordCalls exchangeRates (callsForPair fromCode toCode init))
              fromCode toCode (JSNum.fin last.1) last.2 := by
      simp [recordCalls, callsForPair, List.foldl_append]
    rw [hstep]
    by_cases hinit : init = []
    · subst hinit
      simp only [callsForPair, recordCalls, List.map_nil, List.foldl_nil, List.nil_append,
        List.map_cons]
      unfold updateExchangeRate
      simp only [hnew, lookupKey_assignKey_same, JSNum.reparse_fin]
      simp [meanOfLastTen, sliceLast]
    · have hprev := ih hinit
      unfold updateExchangeRate
      simp only [hprev, lookupKey_assignKey_same, JSNum.reparse_fin]
      have hhist :
          init.map (fun o => ({ rate := JSNum.fin o.1, date := o.2 } : RateObservation))
              ++ [{ rate := JSNum.fin last.1, date := last.2 }]
            = (init ++ [last]).map
                (fun o => ({ rate := JSNum.fin o.1, date := o.2 } : RateObservation)) := by
        simp
      rw [hhist, sliceLast_map, avgRate_finite]
      · simp only [meanOfLastTen, sliceLast_map]
      · exact sliceLast_ne_nil 10 _ (by decide) (by simp)


/-! ## Recording a rate and resolving it -/

/-- After a first recording for a pair whose two keys differ, the pair
resolves to the recorded rate and the reversed pair to its reciprocal. -/
theorem resolve_after_first_record (exchangeRates : RateStore) (a b now : String) (r : ℚ)
    (hr : 0 < r) (hab : a ≠ b) (hkeys : rateKey a b ≠ rateKey b a)
    (hdirect : lookupKey exchangeRates (rateKey a b) = none)
    (hreverse : lookupKey exchangeRates (rateKey b a) = none) :
    getExchangeRate (updateExchangeRate exchangeRates a b (JSNum.fin r) now) a b = JSNum.fin r ∧
    getExchangeRate (updateExchangeRate exchangeRates a b (JSNum.fin r) now) b a
      = JSNum.fin (1 / r) := by
  have hba : ¬ b = a := fun h => hab h.symm
  have hne : r ≠ 0 := ne_of_gt hr
  unfold updateExchangeRate
  simp only [hdirect]
  constructor
  · simp [getExchangeRate, hab, lookupKey_assignKey_same, JSNum.reparse_fin]
  · simp only [getExchangeRate, hba, if_false, lookupKey_assignKey_other _ _ _ _ hkeys, hreverse,
      lookupKey_assignKey_same, JSNum.reparse_fin]
    exact JSNum.div_fin_fin 1 r hne

/-- C1 (evaluation at the failing input): the codes `X_X` and `X` are distinct
and the empty store holds no record for them in either orientation, yet both
orientations are written under the one key `X_X_X`; after recording the rate
`2` from `X_X` to `X`, the reversed pair resolves to `2`, not to `1/2`. -/
theorem recordRate_reverse_key_collision :
    "X_X" ≠ "X" ∧
    rateKey "X_X" "X" = rateKey "X" "X_X" ∧
    lookupKey [] (rateKey "X_X" "X") = none ∧
    lookupKey [] (rateKey "X" "X_X") = none ∧
    getExchangeRate (updateExchangeRate [] "X_X" "X" (JSNum.fin 2) "t") "X_X" "X"
      = JSNum.fin 2 ∧
    getExchangeRate (updateExchangeRate [] "X_X" "X" (JSNum.fin 2) "t") "X" "X_X"
      = JSNum.fin 2 ∧
    JSNum.div (JSNum.fin 1) (JSNum.fin 2) = JSNum.fin (1 / 2) ∧
    JSNum.fin 2 ≠ JSNum.fin (1 / 2) := by
  refine ⟨by decide, by decide, rfl, rfl, by decide, by decide, ?_, ?_⟩
  · exact JSNum.div_fin_fin 1 2 (by norm_num)
  · intro h
    injection h with h
    norm_num at h

/-- C2: after `n ≥ 1` successive recordings for one pair, starting from a store
without that key, the record's current rate is the arithmetic mean of the
last `min n 10` recorded rates; with eleven rates it is the mean of the
second to the eleventh. -/
theorem recordRate_mean_of_last_ten (fromCode toCode : String) (obs : List (ℚ × String))
    (exchangeRates : RateStore) (hn : 1 ≤ obs.length)
    (hnew : lookupKey exchangeRates (rateKey fromCode toCode) = none) :
    ∃ rec : RateRecord,
      lookupKey (recordCalls exchangeRates (callsForPair fromCode toCode obs))
          (rateKey fromCode toCode) = some rec ∧
      rec.rate = JSNum.fin (meanOfLastTen (obs.map Prod.fst)) ∧
      (sliceLast 10 (obs.map Prod.fst)).length = min obs.length 10 ∧
      (obs.length = 11 →
        rec.rate = JSNum.fin (((obs.map Prod.fst).drop 1).sum / 10)) := by
  have hobs : obs ≠ [] := by
    intro h
    rw [h] at hn
    simp at hn
  refine ⟨_, recordCalls_pair_record fromCode toCode obs hobs exchangeRates hnew, rfl, ?_, ?_⟩
  · simp only [sliceLast, List.length_drop, List.length_map]
    omega
  · intro h11
    simp only [meanOfLastTen, sliceLast, List.length_drop, List.length_map, h11]
    norm_num

/-- C2 at eleven recordings `1, 2, .., 11`: the rate kept is the mean of
`2, .., 11`. -/
theorem recordRate_mean_of_last_ten_witness :
    ∃ rec : RateRecord,
      lookupKey (recordCalls [] (callsForPair "USD" "RUB" elevenObservations))
          (rateKey "USD" "RUB") = some rec ∧
      rec.rate = JSNum.fin (meanOfLastTen (elevenObservations.map Prod.fst)) ∧
      (sliceLast 10 (elevenObservations.map Prod.fst)).length
        = min elevenObservations.length 10 ∧
      (elevenObservations.length = 11 →
        rec.rate = JSNum.fin (((elevenObservations.map Prod.fst).drop 1).sum / 10)) :=
  recordRate_mean_of_last_ten "USD" "RUB" elevenObservations [] (by decide) rfl

/-! ## Adding an expense -/

theorem isNaN_eq_true_iff (x : JSNum) : x.isNaN = true ↔ x = JSNum.nan := by
  cases x <;> simp [JSNum.isNaN, JSNum.toNumber]

theorem amountAccepted_iff (amount : String) :
    amountAccepted amount = true ↔ amount ≠ "" ∧ parseFloat amount ≠ JSNum.nan := by
  simp [amountAccepted, ← isNaN_eq_true_iff]

theorem addExpense_accepted (s : AppState) (clock : Clock)
    (h : amountAccepted s.amount = true) :
    (addExpense s clock).state.expenses = s.expenses ++ [newExpense s clock] ∧
    (addExpense s clock).saved = some (saveData s) := by
  simp [addExpense, h, runTotalEffect]

theorem addExpense_rejected (s : AppState) (clock : Clock)
    (h : amountAccepted s.amount = false) :
    addExpense s clock = { state := s, saved := none } := by
  simp [addExpense, h]

/-- C3: the entry appended by an accepted `addExpense` carries the parsed
amount `a` and the selected currency `c`; its primary amount is exactly `a`
when `c` has the code of the primary currency `p`, and `a` over the rate
resolved from `c` to `p` otherwise, which is `a / r` when a record with rate
`r` is stored for the pair. -/
theorem addExpense_primaryAmount (s : AppState) (clock : Clock)
    (h : amountAccepted s.amount = true) :
    ∃ e : Expense,
      (addExpense s clock).state.expenses = s.expenses ++ [e] ∧
      e.amount = parseFloat s.amount ∧
      e.currency = s.selectedCurrency ∧
      (s.selectedCurrency.code = s.primaryCurrency.code →
        e.primaryAmount = parseFloat s.amount) ∧
      (s.selectedCurrency.code ≠ s.primaryCurrency.code →
        e.primaryAmount =
          JSNum.div (parseFloat s.amount)
            (getExchangeRate s.exchangeRates s.selectedCurrency.code s.primaryCurrency.code)) ∧
      (∀ rec : RateRecord, s.selectedCurrency.code ≠ s.primaryCurrency.code →
        lookupKey s.exchangeRates
            (rateKey s.selectedCurrency.code s.primaryCurrency.code) = some rec →
        e.primaryAmount = JSNum.div (parseFloat s.amount) rec.rate) := by
  refine ⟨newExpense s clock, (addExpense_accepted s clock h).1, rfl, rfl, ?_, ?_, ?_⟩
  · intro hc
    simp [newExpense, hc]
  · intro hc
    simp [newExpense, hc]
  · intro rec hc hrec
    simp [newExpense, hc, getExchangeRate, hrec]


theorem amountAccepted_fifty : amountAccepted "50" = true := by
  simp [amountAccepted, JSNum.isNaN, JSNum.toNumber, parseFloat, parseSigned, parseUnsigned,
    scanDigits, isDecimalDigit, digitsValue, scanExponent, pow10, isStrWhiteSpace]

/-- C3 on the form filled with `50` dollars, the primary currency being the
rouble. -/
theorem addExpense_primaryAmount_witness :
    amountAccepted dollarForm.amount = true ∧
    ∃ e : Expense,
      (addExpense dollarForm sampleClock).state.expenses = dollarForm.expenses ++ [e] ∧
      e.amount = parseFloat dollarForm.amount ∧
      e.currency = dollarForm.selectedCurrency ∧
      (dollarForm.selectedCurrency.code = dollarForm.primaryCurrency.code →
        e.primaryAmount = parseFloat dollarForm.amount) ∧
      (dollarForm.selectedCurrency.code ≠ dollarForm.primaryCurrency.code →
        e.primaryAmount =
          JSNum.div (parseFloat dollarForm.amount)
            (getExchangeRate dollarForm.exchangeRates dollarForm.selectedCurrency.code
              dollarForm.primaryCurrency.code)) ∧
      (∀ rec : RateRecord,
        dollarForm.selectedCurrency.code ≠ dollarForm.primaryCurrency.code →
        lookupKey dollarForm.exchangeRates
            (rateKey dollarForm.selectedCurrency.code dollarForm.primaryCurrency.code)
          = some rec →
        e.primaryAmount = JSNum.div (parseFloat dollarForm.amount) rec.rate) :=
  ⟨amountAccepted_fifty, addExpense_primaryAmount dollarForm sampleClock amountAccepted_fifty⟩

/-! ## The total -/

namespace JSNum

theorem addNum_assoc (a b c : JSNum) :
    addNum (addNum a b) c = addNum a (addNum b c) := by
  cases a <;> cases b <;> cases c <;> simp [addNum, add_assoc] <;>
    (try split_ifs) <;> simp_all [addNum]

theorem toNumber_addNum (a b : JSNum) (ha : a ≠ null) (hb : b ≠ null) :
    toNumber (addNum a b) = addNum a b := by
  cases a <;> cases b <;> simp_all [addNum, toNumber]
  split_ifs <;> rfl

theorem toNumber_ne_null (a : JSNum) : toNumber a ≠ null := by
  cases a <;> simp [toNumber]

theorem toNumber_add (a b : JSNum) : toNumber (add a b) = add a b :=
  toNumber_addNum _ _ (toNumber_ne_null a) (toNumber_ne_null b)

theorem add_assoc_num (a b c : JSNum) : add (add a b) c = add a (add b c) := by
  show addNum (toNumber (add a b)) (toNumber c) = addNum (toNumber a) (toNumber (add b c))
  rw [toNumber_add, toNumber_add]
  exact addNum_assoc _ _ _

theorem addNum_zero (a : JSNum) (ha : a ≠ null) : addNum a (fin 0) = toNumber a := by
  cases a <;> simp_all [addNum, toNumber]

theorem add_zero_num (a : JSNum) : add a (fin 0) = toNumber a := by
  show addNum (toNumber a) (fin 0) = toNumber a
  rw [addNum_zero _ (toNumber_ne_null a)]
  cases a <;> rfl

theorem zero_addNum (a : JSNum) (ha : a ≠ null) : addNum (fin 0) a = a := by
  cases a <;> simp_all [addNum]

theorem zero_add_num (a : JSNum) : add (fin 0) a = toNumber a := by
  show addNum (fin 0) (toNumber a) = toNumber a
  exact zero_addNum _ (toNumber_ne_null a)

end JSNum

theorem sumNumbers_toNumber (xs : List JSNum) :
    JSNum.toNumber (sumNumbers xs) = sumNumbers xs := by
  cases xs with
  | nil => rfl
  | cons x rest => exact JSNum.toNumber_add _ _

theorem totalStep_eq (primaryCurrency : Currency) (exchangeRates : RateStore)
    (sum : JSNum) (expense : Expense) :
    totalStep primaryCurrency exchangeRates sum expense
      = JSNum.add sum (amountInPrimary primaryCurrency exchangeRates expense) := by
  unfold totalStep amountInPrimary
  split_ifs <;> rfl

theorem foldl_totalStep (primaryCurrency : Currency) (exchangeRates : RateStore)
    (expenses : List Expense) (acc : JSNum) (hacc : JSNum.toNumber acc = acc) :
    expenses.foldl (totalStep primaryCurrency exchangeRates) acc
      = JSNum.add acc
          (sumNumbers (expenses.map (amountInPrimary primaryCurrency exchangeRates))) := by
  induction expenses generalizing acc with
  | nil =>
    simp only [List.foldl_nil, List.map_nil, sumNumbers]
    rw [JSNum.add_zero_num, hacc]
  | cons e rest ih =>
    simp only [List.foldl_cons, List.map_cons, sumNumbers, totalStep_eq]
    rw [ih _ (JSNum.toNumber_add _ _), JSNum.add_assoc_num]

theorem calculateTotalExpense_eq_sum (expenses : List Expense) (primaryCurrency : Currency)
    (exchangeRates : RateStore) :
    calculateTotalExpense expenses primaryCurrency exchangeRates
      = totalInPrimary expenses primaryCurrency exchangeRates := by
  unfold calculateTotalExpense totalInPrimary
  rw [foldl_totalStep _ _ _ _ rfl, JSNum.zero_add_num, sumNumbers_toNumber]

/-- C4: `calculateTotalExpense` is the sum, over all ledger entries, of the
amount when the entry's currency is the primary one and of the amount over
the resolved rate otherwise; a ledger of 100 in the primary currency and 50
in another one that resolves to the rate 0.5 totals 200. -/
theorem calculateTotalExpense_spec :
    (∀ (expenses : List Expense) (primaryCurrency : Currency) (exchangeRates : RateStore),
      calculateTotalExpense expenses primaryCurrency exchangeRates
        = sumNumbers
            (expenses.map (fun entry =>
              if entry.currency.code = primaryCurrency.code then entry.amount
              else
                JSNum.div entry.amount
                  (getExchangeRate exchangeRates entry.currency.code primaryCurrency.code)))) ∧
    getExchangeRate dollarStore USD.code RUB.code = JSNum.fin (1 / 2) ∧
    calculateTotalExpense
        [sampleExpense "1" (JSNum.fin 100) RUB, sampleExpense "2" (JSNum.fin 50) USD]
        RUB dollarStore
      = JSNum.fin 200 := by
  refine ⟨?_, ?_, ?_⟩
  · intro expenses primaryCurrency exchangeRates
    exact calculateTotalExpense_eq_sum expenses primaryCurrency exchangeRates
  · simp [getExchangeRate, dollarStore, lookupKey, rateKey, USD, RUB]
  · simp [calculateTotalExpense, totalStep, sampleExpense, getExchangeRate, dollarStore,
      lookupKey, rateKey, USD, RUB, JSNum.div, JSNum.divNum, JSNum.toNumber]
    norm_num

/-! ## The displayed total -/

theorem parseFloat_half : parseFloat "0.5" = JSNum.fin (1 / 2) := by
  simp [parseFloat, parseSigned, parseUnsigned, scanDigits, isDecimalDigit, digitsValue,
    scanExponent, pow10, isStrWhiteSpace]
  norm_num

theorem parseFloat_one : parseFloat "1" = JSNum.fin 1 := by
  simp [parseFloat, parseSigned, parseUnsigned, scanDigits, isDecimalDigit, digitsValue,
    scanExponent, pow10, isStrWhiteSpace]

theorem conversionForm_accepted : conversionAccepted conversionForm = true := by
  simp [conversionAccepted, conversionForm, parseFloat_half, parseFloat_one, JSNum.isNaN,
    JSNum.toNumber]

/-- C5 (counterexample): the ledger holds 50 dollars, the primary currency is
the rouble and no rate is known, so the displayed total 50 is current.
Recording the rate 0.5 from dollar to rouble leaves the ledger and the
primary currency as they are and leaves the displayed total at 50, whereas
the total over the current rate store is 100. -/
theorem total_stale_after_recordRate :
    totalIsCurrent conversionForm ∧
    conversionAccepted conversionForm = true ∧
    (handleConversion conversionForm sampleClock).state.expenses = conversionForm.expenses ∧
    (handleConversion conversionForm sampleClock).state.primaryCurrency
      = conversionForm.primaryCurrency ∧
    (handleConversion conversionForm sampleClock).state.totalExpense = JSNum.fin 50 ∧
    calculateTotalExpense (handleConversion conversionForm sampleClock).state.expenses
        (handleConversion conversionForm sampleClock).state.primaryCurrency
        (handleConversion conversionForm sampleClock).state.exchangeRates
      = JSNum.fin 100 ∧
    ¬ totalIsCurrent (handleConversion conversionForm sampleClock).state := by
  have hacc := conversionForm_accepted
  have hstate :
      (handleConversion conversionForm sampleClock).state
        = { conversionForm with
            exchangeRates :=
              updateExchangeRate [] "USD" "RUB" (JSNum.fin (1 / 2)) sampleClock.iso } := by
    simp only [handleConversion, hacc, if_true, runTotalEffect]
    simp [conversionForm, initialState, parseFloat_half, USD, RUB]
  have htotal :
      calculateTotalExpense (handleConversion conversionForm sampleClock).state.expenses
          (handleConversion conversionForm sampleClock).state.primaryCurrency
          (handleConversion conversionForm sampleClock).state.exchangeRates
        = JSNum.fin 100 := by
    rw [hstate]
    simp [calculateTotalExpense, totalStep, sampleExpense, getExchangeRate, conversionForm,
      initialState, updateExchangeRate, assignKey, lookupKey, rateKey, USD, RUB, JSNum.div,
      JSNum.divNum, JSNum.toNumber, JSNum.reparse]
    norm_num
  have hshown : (handleConversion conversionForm sampleClock).state.totalExpense = JSNum.fin 50 := by
    rw [hstate]
    rfl
  refine ⟨?_, hacc, ?_, ?_, hshown, htotal, ?_⟩
  · simp [totalIsCurrent, calculateTotalExpense, totalStep, sampleExpense, getExchangeRate,
      conversionForm, initialState, lookupKey, rateKey, USD, RUB, JSNum.div, JSNum.divNum,
      JSNum.toNumber]
  · rw [hstate]
  · rw [hstate]
  · unfold totalIsCurrent
    rw [htotal, hshown]
    intro h
    injection h with h
    norm_num at h

/-- C5 (amended): for every state, the displayed total is the total over the
current ledger, primary currency and rate store after `deleteExpense`, after
`setPrimaryCurrencyHandler` with a currency object other than the one held,
and after `addExpense` when the amount is accepted; `handleConversion`,
`addCurrency` and `setPrimaryCurrencyHandler` with the object already held
leave the displayed total as it was, and so does a rejected `addExpense`. -/
theorem total_current_after_ledger_or_primary_change (toUpperCase : String → String)
    (s : AppState) (clock : Clock) (id : String) (currency : Currency) :
    (amountAccepted s.amount = true → totalIsCurrent (addExpense s clock).state) ∧
    (amountAccepted s.amount = false →
      (addExpense s clock).state.totalExpense = s.totalExpense) ∧
    totalIsCurrent (deleteExpense s id).state ∧
    totalIsCurrent (setPrimaryCurrencyHandler s currency false).state ∧
    (setPrimaryCurrencyHandler s currency true).state.totalExpense = s.totalExpense ∧
    (handleConversion s clock).state.totalExpense = s.totalExpense ∧
    (addCurrency toUpperCase s).state.totalExpense = s.totalExpense := by
  refine ⟨?_, ?_, ?_, ?_, ?_, ?_, ?_⟩
  · intro h
    simp [totalIsCurrent, addExpense, h, runTotalEffect]
  · intro h
    simp [addExpense, h]
  · simp [totalIsCurrent, deleteExpense, runTotalEffect]
  · simp [totalIsCurrent, setPrimaryCurrencyHandler, runTotalEffect]
  · simp [setPrimaryCurrencyHandler, runTotalEffect]
  · unfold handleConversion
    split_ifs <;> simp [runTotalEffect]
  · unfold addCurrency
    split_ifs <;> simp [runTotalEffect]

/-- C5 (amended) on a state with three expenses and a rate record: an expense
of 50 dollars is added, the second expense is deleted, the dollar is made the
primary currency, a rate is recorded and a currency is added. -/
theorem total_current_after_ledger_or_primary_change_witness :
    amountAccepted busyState.amount = true ∧
    totalIsCurrent (addExpense busyState sampleClock).state ∧
    totalIsCurrent (deleteExpense busyState "1714650000001").state ∧
    totalIsCurrent (setPrimaryCurrencyHandler busyState USD false).state ∧
    (setPrimaryCurrencyHandler busyState RUB true).state.totalExpense
      = busyState.totalExpense ∧
    (handleConversion busyState sampleClock).state.totalExpense = busyState.totalExpense ∧
    (addCurrency asciiUpperCase busyState).state.totalExpense = busyState.totalExpense :=
  ⟨amountAccepted_fifty,
    (total_current_after_ledger_or_primary_change asciiUpperCase busyState sampleClock
      "1714650000001" USD).1 amountAccepted_fifty,
    (total_current_after_ledger_or_primary_change asciiUpperCase busyState sampleClock
      "1714650000001" USD).2.2.1,
    (total_current_after_ledger_or_primary_change asciiUpperCase busyState sampleClock
      "1714650000001" USD).2.2.2.1,
    (total_current_after_ledger_or_primary_change asciiUpperCase busyState sampleClock
      "1714650000001" RUB).2.2.2.2.1,
    (total_current_after_ledger_or_primary_change asciiUpperCase busyState sampleClock
      "1714650000001" USD).2.2.2.2.2⟩

/-! ## The snapshot handed to persistence -/

/-- C6 (evaluation at the failing input): `addExpense` on the form filled with
50 dollars, the ledger being empty.  The ledger after the operation holds the
new entry, but the snapshot handed to persistence is the one of the state
before it, whose list of expenses is empty. -/
theorem addExpense_saves_previous_state :
    (addExpense dollarForm sampleClock).state.expenses = [newExpense dollarForm sampleClock] ∧
    (addExpense dollarForm sampleClock).saved = some (saveData dollarForm) ∧
    (saveData dollarForm).expenses = some [] ∧
    (saveData (addExpense dollarForm sampleClock).state).expenses
      ≠ (saveData dollarForm).expenses := by
  have h := addExpense_accepted dollarForm sampleClock amountAccepted_fifty
  refine ⟨?_, h.2, rfl, ?_⟩
  · rw [h.1]
    rfl
  · rw [saveData, h.1]
    simp [saveData, dollarForm, initialState]

/-! ## Saving and loading -/

theorem jsonNumber_writable (x : JSNum) (h : x.writable = true) : jsonNumber x = x := by
  cases x <;> simp_all [JSNum.writable, jsonNumber]

theorem map_jsonExpense_writable (expenses : List Expense)
    (h : ∀ e ∈ expenses, e.amount.writable = true ∧ e.primaryAmount.writable = true) :
    expenses.map jsonExpense = expenses := by
  induction expenses with
  | nil => rfl
  | cons e rest ih =>
    have he := h e (List.mem_cons_self e rest)
    have hrest := ih (fun x hx => h x (List.mem_cons_of_mem e hx))
    simp only [List.map_cons, hrest]
    congr 1
    simp [jsonExpense, jsonNumber_writable _ he.1, jsonNumber_writable _ he.2]

theorem map_jsonObservation_writable (history : List RateObservation)
    (h : ∀ o ∈ history, o.rate.writable = true) :
    history.map jsonObservation = history := by
  induction history with
  | nil => rfl
  | cons o rest ih =>
    have ho := h o (List.mem_cons_self o rest)
    have hrest := ih (fun x hx => h x (List.mem_cons_of_mem o hx))
    simp only [List.map_cons, hrest]
    congr 1
    simp [jsonObservation, jsonNumber_writable _ ho]

theorem jsonRates_writable (rates : RateStore)
    (h : ∀ p ∈ rates, p.2.rate.writable = true ∧ ∀ o ∈ p.2.history, o.rate.writable = true) :
    jsonRates rates = rates := by
  induction rates with
  | nil => rfl
  | cons p rest ih =>
    have hp := h p (List.mem_cons_self p rest)
    have hrest : jsonRates rest = rest := ih (fun x hx => h x (List.mem_cons_of_mem p hx))
    obtain ⟨k, rec⟩ := p
    simp only [jsonRates, List.map_cons] at hrest ⊢
    rw [hrest]
    congr 2
    simp [jsonRecord, jsonNumber_writable _ hp.1, map_jsonObservation_writable _ hp.2]

/-- C7 (counterexample): after `addExpense` with the amount text `Infinity`
the ledger holds an entry whose amount is infinite; saved and loaded again,
the entry comes back with the amount `null`, so the loaded ledger differs
from the saved one. -/
theorem roundtrip_loses_infinite_amount :
    (addExpense infinityForm sampleClock).state.expenses.map Expense.amount
      = [JSNum.inf false] ∧
    (loadData initialState
        (some (saveData (addExpense infinityForm sampleClock).state))).expenses.map
          Expense.amount
      = [JSNum.null] ∧
    (loadData initialState (some (saveData (addExpense infinityForm sampleClock).state))).expenses
      ≠ (addExpense infinityForm sampleClock).state.expenses := by
  have hacc : amountAccepted infinityForm.amount = true := by decide
  have hexp := (addExpense_accepted infinityForm sampleClock hacc).1
  have hinf : parseFloat "Infinity" = JSNum.inf false := by decide
  have h1 : (addExpense infinityForm sampleClock).state.expenses.map Expense.amount
      = [JSNum.inf false] := by
    rw [hexp]
    simp [infinityForm, initialState, newExpense, hinf]
  have h2 :
      (loadData initialState
          (some (saveData (addExpense infinityForm sampleClock).state))).expenses.map
            Expense.amount
        = [JSNum.null] := by
    simp only [loadData, saveData, Option.getD_some, hexp]
    simp [infinityForm, initialState, newExpense, hinf, jsonExpense, jsonNumber]
  refine ⟨h1, h2, ?_⟩
  intro h
  rw [h, h1] at h2
  simp at h2

/-- C7 (amended): for every state none of whose amounts, primary amounts and
rates is an infinity or NaN, loading the blob that `saveData` serialises from
it yields expenses, currencies, primary currency and rate store equal to the
original ones, whatever the state the load starts from. -/
theorem roundtrip_writable (s t : AppState) (h : writableState s) :
    (loadData t (some (saveData s))).expenses = s.expenses ∧
    (loadData t (some (saveData s))).currencies = s.currencies ∧
    (loadData t (some (saveData s))).primaryCurrency = s.primaryCurrency ∧
    (loadData t (some (saveData s))).exchangeRates = s.exchangeRates := by
  refine ⟨?_, rfl, rfl, ?_⟩
  · simp only [loadData, saveData, Option.getD_some]
    exact map_jsonExpense_writable _ h.1
  · simp only [loadData, saveData, Option.getD_some]
    exact jsonRates_writable _ h.2

theorem writableState_twinLedger :
    writableState { twinLedger with exchangeRates := dollarStore } := by
  unfold writableState
  simp [twinLedger, dollarStore, sampleExpense, JSNum.writable]

/-- C7 (amended) on a state with three expenses and one rate record, loaded
into the initial state. -/
theorem roundtrip_writable_witness :
    writableState { twinLedger with exchangeRates := dollarStore } ∧
    (loadData initialState
        (some (saveData { twinLedger with exchangeRates := dollarStore }))).expenses
      = twinLedger.expenses ∧
    (loadData initialState
        (some (saveData { twinLedger with exchangeRates := dollarStore }))).currencies
      = twinLedger.currencies ∧
    (loadData initialState
        (some (saveData { twinLedger with exchangeRates := dollarStore }))).primaryCurrency
      = twinLedger.primaryCurrency ∧
    (loadData initialState
        (some (saveData { twinLedger with exchangeRates := dollarStore }))).exchangeRates
      = dollarStore :=
  ⟨writableState_twinLedger,
    roundtrip_writable { twinLedger with exchangeRates := dollarStore } initialState
      writableState_twinLedger⟩

/-! ## Which keys a store holds -/

theorem isSome_lookupKey_update (exchangeRates : RateStore) (a b : String) (rate : JSNum)
    (now key : String) :
    (lookupKey (updateExchangeRate exchangeRates a b rate now) key).isSome = true ↔
      rateKey a b = key ∨ (lookupKey exchangeRates key).isSome = true := by
  unfold updateExchangeRate
  cases hfound : lookupKey exchangeRates (rateKey a b) <;>
    simp only [hfound, lookupKey_assignKey] <;>
    by_cases hk : rateKey a b = key <;> simp [hk]

theorem isSome_lookupKey_recordCalls (calls : List RateCall) (exchangeRates : RateStore)
    (key : String) :
    (lookupKey (recordCalls exchangeRates calls) key).isSome = true ↔
      (lookupKey exchangeRates key).isSome = true ∨
        ∃ c ∈ calls, rateKey c.fromCode c.toCode = key := by
  induction calls generalizing exchangeRates with
  | nil => simp [recordCalls]
  | cons c rest ih =>
    have hstep : recordCalls exchangeRates (c :: rest)
        = recordCalls (updateExchangeRate exchangeRates c.fromCode c.toCode c.rate c.now) rest :=
      rfl
    rw [hstep, ih, isSome_lookupKey_update]
    simp only [List.mem_cons, exists_eq_or_imp]
    tauto

/-- C8 (counterexample): recording a rate from dollar to rouble and then one
from rouble to dollar, starting from the empty store, leaves a record under
each of the two orientations of the pair. -/
theorem both_directions_stored :
    "USD" ≠ "RUB" ∧
    (lookupKey
        (recordCalls []
          [{ fromCode := "USD", toCode := "RUB", rate := JSNum.fin 2, now := "t1" },
           { fromCode := "RUB", toCode := "USD", rate := JSNum.fin 3, now := "t2" }])
        (rateKey "USD" "RUB")).isSome = true ∧
    (lookupKey
        (recordCalls []
          [{ fromCode := "USD", toCode := "RUB", rate := JSNum.fin 2, now := "t1" },
           { fromCode := "RUB", toCode := "USD", rate := JSNum.fin 3, now := "t2" }])
        (rateKey "RUB" "USD")).isSome = true := by
  refine ⟨by decide, ?_, ?_⟩
  · rw [isSome_lookupKey_recordCalls]
    right
    exact ⟨_, List.mem_cons_self _ _, rfl⟩
  · rw [isSome_lookupKey_recordCalls]
    right
    exact ⟨_, List.mem_cons_of_mem _ (List.mem_cons_self _ _), rfl⟩

theorem lookupKey_update (exchangeRates : RateStore) (a b : String) (rate : JSNum)
    (now key : String) :
    lookupKey (updateExchangeRate exchangeRates a b rate now) key =
      if rateKey a b = key then
        some
          (match lookupKey exchangeRates (rateKey a b) with
           | none =>
             { rate := rate.reparse, history := [{ rate := rate.reparse, date := now }] }
           | some rec =>
             { rate :=
                 avgRate (sliceLast 10 (rec.history ++ [{ rate := rate.reparse, date := now }])),
               history := rec.history ++ [{ rate := rate.reparse, date := now }] })
      else lookupKey exchangeRates key := by
  unfold updateExchangeRate
  cases hfound : lookupKey exchangeRates (rateKey a b) <;>
    simp only [hfound, lookupKey_assignKey]

/-- C8 (amended): a call `updateExchangeRate(A, B, r)` writes under the key of
`(A, B)` and nowhere else.  Under that key stands afterwards the new record (a
single observation when the key was absent, otherwise the history with the
observation appended and the mean of its last ten as rate); under every other
key, the key of `(B, A)` included when it is another key, stands exactly what
stood there before.  Hence a store reached from the empty store by a sequence
of calls holds a record under a key exactly when one of the calls was made
for a pair with that key. -/
theorem updateExchangeRate_writes_one_key :
    (∀ (exchangeRates : RateStore) (a b : String) (rate : JSNum) (now key : String),
      lookupKey (updateExchangeRate exchangeRates a b rate now) key =
        if rateKey a b = key then
          some
            (match lookupKey exchangeRates (rateKey a b) with
             | none =>
               { rate := rate.reparse, history := [{ rate := rate.reparse, date := now }] }
             | some rec =>
               { rate :=
                   avgRate
                     (sliceLast 10 (rec.history ++ [{ rate := rate.reparse, date := now }])),
                 history := rec.history ++ [{ rate := rate.reparse, date := now }] })
        else lookupKey exchangeRates key) ∧
    (∀ (calls : List RateCall) (key : String),
      (lookupKey (recordCalls [] calls) key).isSome = true ↔
        ∃ c ∈ calls, rateKey c.fromCode c.toCode = key) := by
  refine ⟨lookupKey_update, ?_⟩
  intro calls key
  rw [isSome_lookupKey_recordCalls]
  simp [lookupKey]

/-! ## Validation of the amount -/

/-- C9 (counterexample): the amount text `Infinity` parses to an infinite
value, and `addExpense` accepts it: the ledger, empty before, holds one entry
with an infinite amount afterwards. -/
theorem addExpense_accepts_infinity :
    parseFloat infinityForm.amount = JSNum.inf false ∧
    infinityForm.expenses = [] ∧
    (addExpense infinityForm sampleClock).state.expenses
      = [newExpense infinityForm sampleClock] ∧
    (newExpense infinityForm sampleClock).amount = JSNum.inf false ∧
    (addExpense infinityForm sampleClock).state.expenses ≠ infinityForm.expenses := by
  have hacc : amountAccepted infinityForm.amount = true := by decide
  have hexp := (addExpense_accepted infinityForm sampleClock hacc).1
  have hinf : parseFloat infinityForm.amount = JSNum.inf false := by decide
  refine ⟨hinf, rfl, ?_, hinf, ?_⟩
  · rw [hexp]
    rfl
  · rw [hexp]
    simp [infinityForm, initialState]

/-- C9 (amended): when the amount text is empty or `parseFloat` gives NaN for
it, `addExpense` changes nothing and saves nothing; otherwise, infinite
values included, it appends exactly one entry, whose amount is the parsed
value. -/
theorem addExpense_validation (s : AppState) (clock : Clock) :
    ((s.amount = "" ∨ parseFloat s.amount = JSNum.nan) →
      addExpense s clock = { state := s, saved := none }) ∧
    (¬ (s.amount = "" ∨ parseFloat s.amount = JSNum.nan) →
      ∃ e : Expense,
        (addExpense s clock).state.expenses = s.expenses ++ [e] ∧
        e.amount = parseFloat s.amount) := by
  constructor
  · intro h
    apply addExpense_rejected
    cases hacc : amountAccepted s.amount
    · rfl
    · rw [amountAccepted_iff] at hacc
      rcases h with h | h
      · exact absurd h hacc.1
      · exact absurd h hacc.2
  · intro h
    have hacc : amountAccepted s.amount = true := by
      rw [amountAccepted_iff]
      exact ⟨fun he => h (Or.inl he), fun hn => h (Or.inr hn)⟩
    exact ⟨newExpense s clock, (addExpense_accepted s clock hacc).1, rfl⟩

/-- C9 (amended) on the initial state, whose amount text is empty, and on the
form filled with the text `Infinity`. -/
theorem addExpense_validation_witness :
    (initialState.amount = "" ∨ parseFloat initialState.amount = JSNum.nan) ∧
    addExpense initialState sampleClock = { state := initialState, saved := none } ∧
    ¬ (infinityForm.amount = "" ∨ parseFloat infinityForm.amount = JSNum.nan) ∧
    ∃ e : Expense,
      (addExpense infinityForm sampleClock).state.expenses = infinityForm.expenses ++ [e] ∧
      e.amount = parseFloat infinityForm.amount :=
  ⟨Or.inl rfl,
    (addExpense_validation initialState sampleClock).1 (Or.inl rfl),
    by decide,
    (addExpense_validation infinityForm sampleClock).2 (by decide)⟩

/-! ## Deleting an expense -/

theorem filter_ne_of_count_zero (expenses : List Expense) (id : String)
    (h : expenses.countP (fun e => decide (e.id = id)) = 0) :
    expenses.filter (fun expense => decide (expense.id ≠ id)) = expenses := by
  rw [List.filter_eq_self]
  rw [List.countP_eq_zero] at h
  intro e he
  simpa using h e he

theorem filter_ne_of_count_one (expenses : List Expense) (id : String)
    (h : expenses.countP (fun e => decide (e.id = id)) = 1) :
    ∃ (before : List Expense) (removed : Expense) (after : List Expense),
      expenses = before ++ removed :: after ∧ removed.id = id ∧
      expenses.filter (fun expense => decide (expense.id ≠ id)) = before ++ after := by
  induction expenses with
  | nil => simp at h
  | cons x rest ih =>
    by_cases hx : x.id = id
    · have hrest : rest.countP (fun e => decide (e.id = id)) = 0 := by
        simpa [List.countP_cons, hx] using h
      refine ⟨[], x, rest, rfl, hx, ?_⟩
      rw [List.filter_cons_of_neg (by simp [hx])]
      exact filter_ne_of_count_zero rest id hrest
    · have hrest : rest.countP (fun e => decide (e.id = id)) = 1 := by
        simpa [List.countP_cons, hx] using h
      obtain ⟨before, removed, after, hsplit, hid, hfilter⟩ := ih hrest
      refine ⟨x :: before, removed, after, ?_, hid, ?_⟩
      · rw [hsplit]
        rfl
      · rw [List.filter_cons_of_pos (by simp [hx]), hfilter]
        rfl

/-- C10 (counterexample): in a ledger of three entries of which the first two
carry the same id, `deleteExpense` with that id removes both: one entry is
left, not two. -/
theorem deleteExpense_removes_all_with_id :
    twinLedger.expenses.length = 3 ∧
    (∃ e ∈ twinLedger.expenses, e.id = "1714650000000") ∧
    (deleteExpense twinLedger "1714650000000").state.expenses
      = [sampleExpense "1714650000001" (JSNum.fin 30) RUB] ∧
    (deleteExpense twinLedger "1714650000000").state.expenses.length + 1
      ≠ twinLedger.expenses.length := by
  have hdel : (deleteExpense twinLedger "1714650000000").state.expenses
      = [sampleExpense "1714650000001" (JSNum.fin 30) RUB] := by
    simp [deleteExpense, runTotalEffect, twinLedger, initialState, sampleExpense,
      List.filter_cons]
  refine ⟨rfl, ⟨_, List.mem_cons_self _ _, rfl⟩, hdel, ?_⟩
  rw [hdel]
  simp [twinLedger, initialState]

/-- C10 (amended): when exactly one entry of the ledger carries the id,
`deleteExpense` removes that entry and nothing else: the ledger splits around
an entry with that id, the result is what stands before it followed by what
stands after it, and it is one entry shorter.  (In general every entry
carrying the id is removed.) -/
theorem deleteExpense_unique_id (s : AppState) (id : String)
    (h : s.expenses.countP (fun e => decide (e.id = id)) = 1) :
    ∃ (before : List Expense) (removed : Expense) (after : List Expense),
      s.expenses = before ++ removed :: after ∧ removed.id = id ∧
      (deleteExpense s id).state.expenses = before ++ after ∧
      (deleteExpense s id).state.expenses.length + 1 = s.expenses.length := by
  obtain ⟨before, removed, after, hsplit, hid, hfilter⟩ :=
    filter_ne_of_count_one s.expenses id h
  have hdel : (deleteExpense s id).state.expenses = before ++ after := by
    simp only [deleteExpense, runTotalEffect, if_true]
    exact hfilter
  refine ⟨before, removed, after, hsplit, hid, hdel, ?_⟩
  rw [hdel, hsplit]
  simp only [List.length_append, List.length_cons]
  omega

/-- C10 (amended) on the ledger of three entries, for the id that only the
third one carries. -/
theorem deleteExpense_unique_id_witness :
    twinLedger.expenses.countP (fun e => decide (e.id = "1714650000001")) = 1 ∧
    ∃ (before : List Expense) (removed : Expense) (after : List Expense),
      twinLedger.expenses = before ++ removed :: after ∧ removed.id = "1714650000001" ∧
      (deleteExpense twinLedger "1714650000001").state.expenses = before ++ after ∧
      (deleteExpense twinLedger "1714650000001").state.expenses.length + 1
        = twinLedger.expenses.length :=
  ⟨by decide, deleteExpense_unique_id twinLedger "1714650000001" (by decide)⟩

/-! ## Deleting an id that no entry carries -/

/-- C11: when no entry of the ledger carries the id, `deleteExpense` leaves the
ledger as it is: the same entries in the same order. -/
theorem deleteExpense_absent_id (s : AppState) (id : String)
    (h : ∀ e ∈ s.expenses, e.id ≠ id) :
    (deleteExpense s id).state.expenses = s.expenses := by
  simp only [deleteExpense, runTotalEffect, if_true]
  rw [List.filter_eq_self]
  intro e he
  simpa using h e he

/-- C11 on the ledger of three entries, for an id none of them carries. -/
theorem deleteExpense_absent_id_witness :
    (∀ e ∈ twinLedger.expenses, e.id ≠ "42") ∧
    (deleteExpense twinLedger "42").state.expenses = twinLedger.expenses :=
  ⟨by decide, deleteExpense_absent_id twinLedger "42" (by decide)⟩

/-! ## Codes of the registry -/

theorem addCurrencyWith_currencies (toUpperCase : String → String) (s : AppState)
    (input : CurrencyInput) :
    (addCurrencyWith toUpperCase s input).currencies =
      if input.accepted then
        s.currencies ++
          [{ code := toUpperCase input.code, symbol := input.symbol, name := input.name }]
      else s.currencies := by
  unfold addCurrencyWith addCurrency CurrencyInput.accepted
  by_cases hc : input.code = "" <;> by_cases hs : input.symbol = "" <;>
    by_cases hn : input.name = "" <;> simp [hc, hs, hn, runTotalEffect]

theorem addCurrencies_codes (toUpperCase : String → String) (inputs : List CurrencyInput)
    (s : AppState) :
    (addCurrencies toUpperCase s inputs).currencies.map Currency.code =
      s.currencies.map Currency.code ++
        (inputs.filter CurrencyInput.accepted).map (fun input => toUpperCase input.code) := by
  induction inputs generalizing s with
  | nil => simp [addCurrencies]
  | cons input rest ih =>
    have hstep : addCurrencies toUpperCase s (input :: rest)
        = addCurrencies toUpperCase (addCurrencyWith toUpperCase s input) rest :=
      rfl
    rw [hstep, ih, addCurrencyWith_currencies]
    by_cases hacc : input.accepted = true
    · simp [hacc, List.filter_cons]
    · simp [hacc, List.filter_cons]

/-- C13 (counterexample): adding a currency with the code text `usd` to the
default registry appends a second currency with the code `USD` (on this text
of ASCII letters the sample upper-casing is the platform's). -/
theorem addCurrency_duplicate_code :
    asciiUpperCase "usd" = "USD" ∧
    (addCurrencies asciiUpperCase initialState
        [{ code := "usd", symbol := "$", name := "Dollar" }]).currencies.map Currency.code
      = ["RUB", "USD", "EUR", "USD"] ∧
    ¬ ((addCurrencies asciiUpperCase initialState
          [{ code := "usd", symbol := "$", name := "Dollar" }]).currencies.map
        Currency.code).Nodup := by
  have h :
      (addCurrencies asciiUpperCase initialState
          [{ code := "usd", symbol := "$", name := "Dollar" }]).currencies.map Currency.code
        = ["RUB", "USD", "EUR", "USD"] := by
    rw [addCurrencies_codes]
    decide
  refine ⟨by decide, h, ?_⟩
  rw [h]
  decide

/-- C13 (amended): whatever the platform's `toUpperCase` does, the registry
reached from the default seed by a sequence of `addCurrency` calls has the
codes `RUB`, `USD`, `EUR` followed by the upper-cased codes of the accepted
calls, in order, whether or not a code is already present; so its codes are
unique exactly when that list has no repetition. -/
theorem addCurrencies_codes_from_seed (toUpperCase : String → String)
    (inputs : List CurrencyInput) :
    (addCurrencies toUpperCase initialState inputs).currencies.map Currency.code =
      ["RUB", "USD", "EUR"] ++
        (inputs.filter CurrencyInput.accepted).map (fun input => toUpperCase input.code) ∧
    (((addCurrencies toUpperCase initialState inputs).currencies.map Currency.code).Nodup ↔
      (["RUB", "USD", "EUR"] ++
        (inputs.filter CurrencyInput.accepted).map
          (fun input => toUpperCase input.code)).Nodup) := by
  have h := addCurrencies_codes toUpperCase inputs initialState
  have hseed : initialState.currencies.map Currency.code = ["RUB", "USD", "EUR"] := rfl
  rw [hseed] at h
  exact ⟨h, by rw [h]⟩

/-! ## Resolution without a record and of a code to itself -/

/-- C14: for distinct codes with no record under either orientation,
`getExchangeRate` returns `1`; it is a total function, so no error arises. -/
theorem getExchangeRate_unknown (exchangeRates : RateStore) (a b : String) (hab : a ≠ b)
    (hdirect : lookupKey exchangeRates (rateKey a b) = none)
    (hreverse : lookupKey exchangeRates (rateKey b a) = none) :
    getExchangeRate exchangeRates a b = JSNum.fin 1 := by
  simp [getExchangeRate, hab, hdirect, hreverse]

/-- C14 on the store that only knows the dollar-to-rouble rate, for the pair
euro, rouble. -/
theorem getExchangeRate_unknown_witness :
    "EUR" ≠ "RUB" ∧
    lookupKey dollarStore (rateKey "EUR" "RUB") = none ∧
    lookupKey dollarStore (rateKey "RUB" "EUR") = none ∧
    getExchangeRate dollarStore "EUR" "RUB" = JSNum.fin 1 :=
  ⟨by decide, by decide, by decide,
    getExchangeRate_unknown dollarStore "EUR" "RUB" (by decide) (by decide) (by decide)⟩

/-- C15: for every code and every rate store, a store with a record keyed by
the code with itself included, `getExchangeRate` from the code to itself
returns `1`. -/
theorem getExchangeRate_self (exchangeRates : RateStore) (x : String) :
    getExchangeRate exchangeRates x x = JSNum.fin 1 ∧
    ∀ rec : RateRecord,
      getExchangeRate (assignKey exchangeRates (rateKey x x) rec) x x = JSNum.fin 1 := by
  constructor
  · simp [getExchangeRate]
  · intro rec
    simp [getExchangeRate]

/-! ## Rates and the range of doubles -/

theorem rateLow_pos : 0 < rateLow := by
  unfold rateLow
  positivity

theorem underflow_lt_low : underflowBound < rateLow := by
  unfold underflowBound rateLow
  norm_num

theorem ten_high_lt_overflow : 10 * rateHigh < overflowBound := by
  unfold rateHigh overflowBound
  norm_num

theorem low_mul_high : rateLow * rateHigh = 1 := by
  unfold rateLow rateHigh
  field_simp

theorem low_le_one : rateLow ≤ 1 := by
  unfold rateLow
  rw [div_le_one (by positivity)]
  norm_num

theorem one_le_high : 1 ≤ rateHigh := by
  unfold rateHigh
  norm_num

theorem isPositive_iff (x : JSNum) : x.isPositive ↔ ∃ q : ℚ, x = JSNum.fin q ∧ 0 < q := by
  cases x <;> simp [JSNum.isPositive]

theorem withinBounds_iff (x : JSNum) :
    x.withinBounds ↔ ∃ q : ℚ, x = JSNum.fin q ∧ rateLow ≤ q ∧ q ≤ rateHigh := by
  cases x <;> simp [JSNum.withinBounds]

theorem withinBounds_positive (x : JSNum) (h : x.withinBounds) :
    x.isPositive ∧ x.toNumber ≠ JSNum.fin 0 := by
  obtain ⟨q, hq, hlow, _⟩ := (withinBounds_iff x).mp h
  subst hq
  have hpos : (0 : ℚ) < q := lt_of_lt_of_le rateLow_pos hlow
  refine ⟨hpos, ?_⟩
  intro hzero
  simp only [JSNum.toNumber, JSNum.fin.injEq] at hzero
  exact (ne_of_gt hpos) hzero

/-- A result between `1e-307` and `1e308` is within the range of doubles. -/
theorem inRange_of_bounds (q : ℚ) (hlow : rateLow ≤ q) (hhigh : q ≤ 10 * rateHigh) :
    (JSNum.fin q).inRange = JSNum.fin q := by
  have hpos : (0 : ℚ) < q := lt_of_lt_of_le rateLow_pos hlow
  have habs : |q| = q := abs_of_pos hpos
  have hover : ¬ overflowBound ≤ |q| := by
    rw [habs]
    exact not_le.mpr (lt_of_le_of_lt hhigh ten_high_lt_overflow)
  have hunder : ¬ |q| ≤ underflowBound := by
    rw [habs]
    exact not_le.mpr (lt_of_lt_of_le underflow_lt_low hlow)
  simp only [JSNum.inRange, hover, hunder, if_false]

theorem foldl_inRange (obs : List RateObservation) (a : ℚ) (ha : a = 0 ∨ rateLow ≤ a)
    (hbound : a + (obs.length : ℚ) * rateHigh ≤ 10 * rateHigh)
    (hall : ∀ o ∈ obs, o.rate.withinBounds) :
    ∃ b : ℚ,
      obs.foldl (fun sum entry => (JSNum.add sum entry.rate).inRange) (JSNum.fin a)
        = JSNum.fin b ∧
      obs.foldl (fun sum entry => JSNum.add sum entry.rate) (JSNum.fin a) = JSNum.fin b ∧
      a + (obs.length : ℚ) * rateLow ≤ b ∧ b ≤ a + (obs.length : ℚ) * rateHigh := by
  induction obs generalizing a with
  | nil => exact ⟨a, rfl, rfl, by simp, by simp⟩
  | cons o rest ih =>
    obtain ⟨q, hq, hlow, hhigh⟩ := (withinBounds_iff o.rate).mp (hall o (List.mem_cons_self o rest))
    have hnonneg : (0 : ℚ) ≤ a := by
      rcases ha with ha | ha
      · rw [ha]
      · exact le_trans (le_of_lt rateLow_pos) ha
    have hlen : ((o :: rest).length : ℚ) = (rest.length : ℚ) + 1 := by
      simp
    rw [hlen] at hbound
    have hrestnonneg : (0 : ℚ) ≤ (rest.length : ℚ) * rateHigh :=
      mul_nonneg (Nat.cast_nonneg _) (le_trans zero_le_one one_le_high)
    have hrestlow : (0 : ℚ) ≤ (rest.length : ℚ) * rateLow :=
      mul_nonneg (Nat.cast_nonneg _) (le_of_lt rateLow_pos)
    have hstep : (JSNum.add (JSNum.fin a) o.rate).inRange = JSNum.fin (a + q) := by
      rw [hq, JSNum.add_fin_fin]
      apply inRange_of_bounds
      · linarith
      · linarith
    obtain ⟨b, hb1, hb2, hb3, hb4⟩ := ih (a + q) (Or.inr (by linarith)) (by linarith)
      (fun x hx => hall x (List.mem_cons_of_mem o hx))
    refine ⟨b, ?_, ?_, ?_, ?_⟩
    · simp only [List.foldl_cons, hstep]
      exact hb1
    · simp only [List.foldl_cons, hq, JSNum.add_fin_fin]
      exact hb2
    · rw [hlen]
      linarith
    · rw [hlen]
      linarith

theorem avgRateInRange_bounded (obs : List RateObservation) (hne : obs ≠ [])
    (hlen : obs.length ≤ 10) (hall : ∀ o ∈ obs, o.rate.withinBounds) :
    avgRateInRange obs = avgRate obs ∧ (avgRate obs).withinBounds := by
  have hhigh0 : (0 : ℚ) ≤ rateHigh := le_trans zero_le_one one_le_high
  have hn : (0 : ℚ) < (obs.length : ℚ) := by
    have : 0 < obs.length := List.length_pos.mpr hne
    exact_mod_cast this
  have hten : (obs.length : ℚ) ≤ 10 := by exact_mod_cast hlen
  have hbound : (0 : ℚ) + (obs.length : ℚ) * rateHigh ≤ 10 * rateHigh := by
    rw [zero_add]
    exact mul_le_mul_of_nonneg_right hten hhigh0
  obtain ⟨b, hb1, hb2, hb3, hb4⟩ := foldl_inRange obs 0 (Or.inl rfl) hbound hall
  rw [zero_add] at hb3 hb4
  have hquot_low : rateLow ≤ b / (obs.length : ℚ) := by
    rw [le_div_iff₀ hn]
    linarith
  have hquot_high : b / (obs.length : ℚ) ≤ rateHigh := by
    rw [div_le_iff₀ hn]
    linarith
  have hexact : avgRate obs = JSNum.fin (b / (obs.length : ℚ)) := by
    unfold avgRate sumRates
    rw [hb2, JSNum.div_fin_fin _ _ (ne_of_gt hn)]
  have hranged : avgRateInRange obs = JSNum.fin (b / (obs.length : ℚ)) := by
    unfold avgRateInRange sumRatesInRange
    rw [hb1, JSNum.div_fin_fin _ _ (ne_of_gt hn)]
    apply inRange_of_bounds _ hquot_low
    have : rateHigh ≤ 10 * rateHigh := by linarith
    linarith
  rw [hranged, hexact]
  exact ⟨rfl, hquot_low, hquot_high⟩

theorem sliceLast_length_le {α : Type} (n : Nat) (xs : List α) : (sliceLast n xs).length ≤ n := by
  simp only [sliceLast, List.length_drop]
  omega

theorem boundedStore_update (exchangeRates : RateStore) (a b now : String) (rate : JSNum)
    (hstore : boundedStore exchangeRates) (hrate : rate.withinBounds) :
    updateExchangeRateInRange exchangeRates a b rate now
      = updateExchangeRate exchangeRates a b rate now ∧
    boundedStore (updateExchangeRate exchangeRates a b rate now) := by
  obtain ⟨q, hq, hlow, hhigh⟩ := (withinBounds_iff rate).mp hrate
  subst hq
  have hnew : (JSNum.fin q).withinBounds := ⟨hlow, hhigh⟩
  cases hfound : lookupKey exchangeRates (rateKey a b) with
  | none =>
    constructor
    · simp only [updateExchangeRateInRange, updateExchangeRate, hfound]
    · intro key rec hrec
      rw [lookupKey_update, hfound] at hrec
      by_cases hk : rateKey a b = key
      · simp only [hk, if_true, Option.some.injEq, JSNum.reparse_fin] at hrec
        subst hrec
        refine ⟨hnew, ?_⟩
        intro o ho
        simp only [List.mem_singleton] at ho
        subst ho
        exact hnew
      · simp only [hk, if_false] at hrec
        exact hstore key rec hrec
  | some old =>
    have hold := (hstore _ old hfound).2
    have hall : ∀ o ∈ old.history ++ [({ rate := JSNum.fin q, date := now } : RateObservation)],
        o.rate.withinBounds := by
      intro o ho
      rcases List.mem_append.mp ho with ho | ho
      · exact hold o ho
      · simp only [List.mem_singleton] at ho
        subst ho
        exact hnew
    have havg := avgRateInRange_bounded
      (sliceLast 10 (old.history ++ [({ rate := JSNum.fin q, date := now } : RateObservation)]))
      (sliceLast_ne_nil 10 _ (by decide) (by simp)) (sliceLast_length_le 10 _)
      (fun o ho => hall o (List.mem_of_mem_drop ho))
    constructor
    · simp only [updateExchangeRateInRange, updateExchangeRate, hfound, JSNum.reparse_fin,
        havg.1]
    · intro key rec hrec
      rw [lookupKey_update, hfound] at hrec
      by_cases hk : rateKey a b = key
      · simp only [hk, if_true, Option.some.injEq, JSNum.reparse_fin] at hrec
        subst hrec
        exact ⟨havg.2, hall⟩
      · simp only [hk, if_false] at hrec
        exact hstore key rec hrec

theorem boundedStore_recordCalls (calls : List RateCall) (exchangeRates : RateStore)
    (hstore : boundedStore exchangeRates) (hcalls : ∀ c ∈ calls, c.rate.withinBounds) :
    recordCallsInRange exchangeRates calls = recordCalls exchangeRates calls ∧
    boundedStore (recordCalls exchangeRates calls) := by
  induction calls generalizing exchangeRates with
  | nil => exact ⟨rfl, hstore⟩
  | cons c rest ih =>
    have hc := boundedStore_update exchangeRates c.fromCode c.toCode c.now c.rate hstore
      (hcalls c (List.mem_cons_self c rest))
    have hexact : recordCalls exchangeRates (c :: rest)
        = recordCalls (updateExchangeRate exchangeRates c.fromCode c.toCode c.rate c.now) rest :=
      rfl
    have hranged : recordCallsInRange exchangeRates (c :: rest)
        = recordCallsInRange
            (updateExchangeRateInRange exchangeRates c.fromCode c.toCode c.rate c.now) rest :=
      rfl
    rw [hexact, hranged, hc.1]
    exact ih _ hc.2 (fun x hx => hcalls x (List.mem_cons_of_mem c hx))

theorem getExchangeRateInRange_bounded (exchangeRates : RateStore) (a b : String)
    (hstore : boundedStore exchangeRates) :
    getExchangeRateInRange exchangeRates a b = getExchangeRate exchangeRates a b ∧
    (getExchangeRate exchangeRates a b).withinBounds := by
  have hone : (JSNum.fin 1).withinBounds := ⟨low_le_one, one_le_high⟩
  unfold getExchangeRateInRange getExchangeRate
  by_cases hab : a = b
  · rw [if_pos hab, if_pos hab]
    exact ⟨rfl, hone⟩
  · rw [if_neg hab, if_neg hab]
    cases hdirect : lookupKey exchangeRates (rateKey a b) with
    | some rec => exact ⟨rfl, (hstore _ rec hdirect).1⟩
    | none =>
      cases hreverse : lookupKey exchangeRates (rateKey b a) with
      | none => exact ⟨rfl, hone⟩
      | some rec =>
        obtain ⟨q, hq, hlow, hhigh⟩ := (withinBounds_iff rec.rate).mp (hstore _ rec hreverse).1
        have hpos : (0 : ℚ) < q := lt_of_lt_of_le rateLow_pos hlow
        have hhighpos : (0 : ℚ) < rateHigh := lt_of_lt_of_le zero_lt_one one_le_high
        have hinv_low : rateLow ≤ 1 / q := by
          rw [le_div_iff₀ hpos]
          calc rateLow * q ≤ rateLow * rateHigh :=
                mul_le_mul_of_nonneg_left hhigh (le_of_lt rateLow_pos)
            _ = 1 := low_mul_high
        have hinv_high : 1 / q ≤ rateHigh := by
          rw [div_le_iff₀ hpos]
          calc (1 : ℚ) = rateLow * rateHigh := low_mul_high.symm
            _ = rateHigh * rateLow := mul_comm _ _
            _ ≤ rateHigh * q := mul_le_mul_of_nonneg_left hlow (le_of_lt hhighpos)
        simp only [hq]
        rw [JSNum.div_fin_fin _ _ (ne_of_gt hpos)]
        refine ⟨inRange_of_bounds _ hinv_low ?_, hinv_low, hinv_high⟩
        linarith

theorem inRange_zero : (JSNum.fin 0).inRange = JSNum.fin 0 := by
  have hpos : ¬ overflowBound ≤ 0 := by
    unfold overflowBound
    norm_num
  simp [JSNum.inRange, hpos]

theorem inRange_huge : (JSNum.fin (10 ^ 308)).inRange = JSNum.fin (10 ^ 308) := by
  simp only [JSNum.inRange]
  rw [if_neg, if_neg]
  · unfold underflowBound
    norm_num
  · unfold overflowBound
    norm_num

theorem inRange_twice_huge : (JSNum.fin (10 ^ 308 + 10 ^ 308)).inRange = JSNum.inf false := by
  simp only [JSNum.inRange]
  rw [if_pos]
  · simp
  · unfold overflowBound
    norm_num

theorem hugeCalls_store :
    recordCallsInRange [] hugeCalls
      = [("USD_RUB",
          { rate := JSNum.inf false,
            history := [{ rate := JSNum.fin (10 ^ 308), date := "t1" },
                        { rate := JSNum.fin (10 ^ 308), date := "t2" }] })] := by
  have hkey : rateKey "USD" "RUB" = "USD_RUB" := by decide
  have hfirst : updateExchangeRateInRange [] "USD" "RUB" (JSNum.fin (10 ^ 308)) "t1"
      = [("USD_RUB",
          { rate := JSNum.fin (10 ^ 308),
            history := [{ rate := JSNum.fin (10 ^ 308), date := "t1" }] })] := by
    simp only [updateExchangeRateInRange, hkey, lookupKey, assignKey, JSNum.reparse]
  have havg :
      avgRateInRange
          (sliceLast 10
            [({ rate := JSNum.fin (10 ^ 308), date := "t1" } : RateObservation),
             { rate := JSNum.fin (10 ^ 308), date := "t2" }])
        = JSNum.inf false := by
    have hslice :
        sliceLast 10
            [({ rate := JSNum.fin (10 ^ 308), date := "t1" } : RateObservation),
             { rate := JSNum.fin (10 ^ 308), date := "t2" }]
          = [{ rate := JSNum.fin (10 ^ 308), date := "t1" },
             { rate := JSNum.fin (10 ^ 308), date := "t2" }] := by
      simp [sliceLast]
    rw [hslice]
    simp only [avgRateInRange, sumRatesInRange, List.foldl, JSNum.add_fin_fin, zero_add,
      inRange_huge, inRange_twice_huge]
    simp [JSNum.div, JSNum.divNum, JSNum.toNumber, JSNum.inRange]
  simp only [recordCallsInRange, hugeCalls, List.foldl, hfirst]
  simp only [updateExchangeRateInRange, hkey, lookupKey, assignKey, JSNum.reparse, if_true,
    List.singleton_append, List.cons_append, List.nil_append, havg]

theorem tinyRateStore_reverse :
    getExchangeRateInRange tinyRateStore "RUB" "USD" = JSNum.inf false := by
  have hk1 : rateKey "RUB" "USD" = "RUB_USD" := by decide
  have hk2 : rateKey "USD" "RUB" = "USD_RUB" := by decide
  have hne : ¬ ("USD_RUB" = "RUB_USD") := by decide
  have hcodes : ¬ ("RUB" = "USD") := by decide
  have hstore : tinyRateStore
      = [("USD_RUB",
          { rate := JSNum.fin (1 / 10 ^ 320),
            history := [{ rate := JSNum.fin (1 / 10 ^ 320), date := "t1" }] })] := by
    simp only [tinyRateStore, recordCallsInRange, List.foldl, updateExchangeRateInRange, hk2,
      lookupKey, assignKey, JSNum.reparse]
  have hquot : JSNum.div (JSNum.fin 1) (JSNum.fin (1 / 10 ^ 320)) = JSNum.fin (10 ^ 320) := by
    have hne : (1 : ℚ) / 10 ^ 320 ≠ 0 := one_div_ne_zero (pow_ne_zero _ (by norm_num))
    rw [JSNum.div_fin_fin _ _ hne, one_div_one_div]
  have hover : (JSNum.fin (10 ^ 320)).inRange = JSNum.inf false := by
    simp only [JSNum.inRange]
    rw [if_pos]
    · simp
    · unfold overflowBound
      norm_num
  rw [hstore]
  simp only [getExchangeRateInRange, hk1, hk2, lookupKey, hne, hcodes, if_false, if_true, hquot,
    hover]

/-- C16 (counterexample): the rate `1e308`, a positive real, is recorded twice
from dollar to rouble, starting from the empty store.  The sum of the two
observations exceeds the range of doubles, so the current rate of the record
is `Infinity`; the reverse pair then resolves to `1 / Infinity = 0`, which is
not positive, and an amount converted with it is divided by zero.  At the
other end, after one recording of the positive rate `1e-320` the reverse pair
resolves to `Infinity`, which is not a positive real either. -/
theorem mean_of_huge_rates_overflows :
    getExchangeRateInRange tinyRateStore "RUB" "USD" = JSNum.inf false ∧
    (∀ c ∈ hugeCalls, c.rate.isPositive) ∧
    (lookupKey (recordCallsInRange [] hugeCalls) (rateKey "USD" "RUB")).map RateRecord.rate
      = some (JSNum.inf false) ∧
    getExchangeRateInRange (recordCallsInRange [] hugeCalls) "RUB" "USD" = JSNum.fin 0 ∧
    ¬ (getExchangeRateInRange (recordCallsInRange [] hugeCalls) "RUB" "USD").isPositive ∧
    (JSNum.div (JSNum.fin 5)
        (getExchangeRateInRange (recordCallsInRange [] hugeCalls) "RUB" "USD")).inRange
      = JSNum.inf false := by
  have hreverse :
      getExchangeRateInRange (recordCallsInRange [] hugeCalls) "RUB" "USD" = JSNum.fin 0 := by
    rw [hugeCalls_store]
    have hk1 : rateKey "RUB" "USD" = "RUB_USD" := by decide
    have hk2 : rateKey "USD" "RUB" = "USD_RUB" := by decide
    have hne : ¬ ("USD_RUB" = "RUB_USD") := by decide
    have hcodes : ¬ ("RUB" = "USD") := by decide
    simp only [getExchangeRateInRange, hk1, hk2, lookupKey, hne, hcodes, if_false, if_true]
    simp only [JSNum.div, JSNum.divNum, JSNum.toNumber, inRange_zero]
  refine ⟨tinyRateStore_reverse, ?_, ?_, hreverse, ?_, ?_⟩
  · intro c hc
    simp only [hugeCalls, List.mem_cons, List.mem_singleton, List.not_mem_nil, or_false] at hc
    rcases hc with hc | hc <;> subst hc <;> show (0 : ℚ) < 10 ^ 308 <;> positivity
  · rw [hugeCalls_store]
    have hk2 : rateKey "USD" "RUB" = "USD_RUB" := by decide
    simp [hk2, lookupKey]
  · rw [hreverse]
    simp [JSNum.isPositive]
  · rw [hreverse]
    simp [JSNum.div, JSNum.divNum, JSNum.toNumber, JSNum.inRange]

/-- C16 (amended): in a store reached from the empty store by recordings whose
rates are finite and lie between `1e-307` and `1e307`, no sum or quotient
leaves the range of doubles (the evaluation within that range is the exact
one), every record's current rate lies between `1e-307` and `1e307`, and so
does `getExchangeRate` for all codes; both are therefore positive reals and
never a zero divisor. -/
theorem recorded_rates_within_bounds (calls : List RateCall)
    (h : ∀ c ∈ calls, c.rate.withinBounds) :
    recordCallsInRange [] calls = recordCalls [] calls ∧
    (∀ (key : String) (rec : RateRecord),
      lookupKey (recordCallsInRange [] calls) key = some rec →
        rec.rate.withinBounds ∧ rec.rate.isPositive ∧ rec.rate.toNumber ≠ JSNum.fin 0) ∧
    (∀ a b : String,
      getExchangeRateInRange (recordCallsInRange [] calls) a b
        = getExchangeRate (recordCalls [] calls) a b ∧
      (getExchangeRateInRange (recordCallsInRange [] calls) a b).withinBounds ∧
      (getExchangeRateInRange (recordCallsInRange [] calls) a b).isPositive ∧
      (getExchangeRateInRange (recordCallsInRange [] calls) a b).toNumber ≠ JSNum.fin 0) := by
  obtain ⟨hsame, hstore⟩ :=
    boundedStore_recordCalls calls [] (fun key rec hrec => by simp [lookupKey] at hrec) h
  refine ⟨hsame, ?_, ?_⟩
  · intro key rec hrec
    rw [hsame] at hrec
    have hb := (hstore key rec hrec).1
    exact ⟨hb, withinBounds_positive _ hb⟩
  · intro a b
    rw [hsame]
    obtain ⟨heq, hb⟩ := getExchangeRateInRange_bounded _ a b hstore
    rw [heq]
    exact ⟨rfl, hb, withinBounds_positive _ hb⟩

theorem small_withinBounds (q : ℚ) (hlow : 1 ≤ q) (hhigh : q ≤ 10) :
    (JSNum.fin q).withinBounds := by
  have hten : (10 : ℚ) ≤ rateHigh := by
    unfold rateHigh
    norm_num
  exact ⟨le_trans low_le_one hlow, le_trans hhigh hten⟩

theorem twoCalls_withinBounds : ∀ c ∈ twoCalls, c.rate.withinBounds := by
  intro c hc
  simp only [twoCalls, List.mem_cons, List.mem_singleton, List.not_mem_nil, or_false] at hc
  rcases hc with hc | hc <;> subst hc
  · exact small_withinBounds 2 (by norm_num) (by norm_num)
  · exact small_withinBounds 4 (by norm_num) (by norm_num)

/-- C16 (amended) on two recordings with the rates `2` and `4`. -/
theorem recorded_rates_within_bounds_witness :
    (∀ c ∈ twoCalls, c.rate.withinBounds) ∧
    recordCallsInRange [] twoCalls = recordCalls [] twoCalls ∧
    (∀ (key : String) (rec : RateRecord),
      lookupKey (recordCallsInRange [] twoCalls) key = some rec →
        rec.rate.withinBounds ∧ rec.rate.isPositive ∧ rec.rate.toNumber ≠ JSNum.fin 0) ∧
    (∀ a b : String,
      getExchangeRateInRange (recordCallsInRange [] twoCalls) a b
        = getExchangeRate (recordCalls [] twoCalls) a b ∧
      (getExchangeRateInRange (recordCallsInRange [] twoCalls) a b).withinBounds ∧
      (getExchangeRateInRange (recordCallsInRange [] twoCalls) a b).isPositive ∧
      (getExchangeRateInRange (recordCallsInRange [] twoCalls) a b).toNumber ≠ JSNum.fin 0) :=
  ⟨twoCalls_withinBounds, recorded_rates_within_bounds twoCalls twoCalls_withinBounds⟩

/-! ## Resolving a pair and its reverse -/

theorem mul_fin_fin (a b : ℚ) : JSNum.mul (JSNum.fin a) (JSNum.fin b) = JSNum.fin (a * b) := rfl

theorem reciprocal_product (q : ℚ) (hq : q ≠ 0) :
    JSNum.mul (JSNum.fin q) (JSNum.div (JSNum.fin 1) (JSNum.fin q)) = JSNum.fin 1 ∧
    JSNum.mul (JSNum.div (JSNum.fin 1) (JSNum.fin q)) (JSNum.fin q) = JSNum.fin 1 := by
  rw [JSNum.div_fin_fin _ _ hq, mul_fin_fin, mul_fin_fin]
  constructor <;> congr 1 <;> field_simp

theorem there_and_back (x q : ℚ) (hq : q ≠ 0) :
    JSNum.div (JSNum.div (JSNum.fin x) (JSNum.fin q)) (JSNum.div (JSNum.fin 1) (JSNum.fin q))
      = JSNum.fin x ∧
    JSNum.div (JSNum.div (JSNum.fin x) (JSNum.div (JSNum.fin 1) (JSNum.fin q))) (JSNum.fin q)
      = JSNum.fin x := by
  have hinv : (1 : ℚ) / q ≠ 0 := one_div_ne_zero hq
  rw [JSNum.div_fin_fin _ _ hq, JSNum.div_fin_fin _ _ hq, JSNum.div_fin_fin _ _ hinv,
    JSNum.div_fin_fin _ _ hinv, JSNum.div_fin_fin _ _ hq]
  constructor <;> congr 1 <;> field_simp

/-- C18 (counterexample): the store holds one record, from dollar to rouble,
whose rate is infinite (hence not zero), and none for the reverse.  The
reverse resolves to `1 / Infinity = 0`; the product of the two resolutions is
`NaN`, not `1`, and 100 converted there and back is `NaN`. -/
theorem reciprocal_fails_for_infinite_rate :
    "USD" ≠ "RUB" ∧
    (lookupKey infiniteRateStore (rateKey "USD" "RUB")).map RateRecord.rate
      = some (JSNum.inf false) ∧
    lookupKey infiniteRateStore (rateKey "RUB" "USD") = none ∧
    getExchangeRate infiniteRateStore "USD" "RUB" = JSNum.inf false ∧
    getExchangeRate infiniteRateStore "RUB" "USD" = JSNum.fin 0 ∧
    JSNum.mul (getExchangeRate infiniteRateStore "USD" "RUB")
        (getExchangeRate infiniteRateStore "RUB" "USD") = JSNum.nan ∧
    JSNum.div (JSNum.div (JSNum.fin 100) (getExchangeRate infiniteRateStore "USD" "RUB"))
        (getExchangeRate infiniteRateStore "RUB" "USD") = JSNum.nan := by
  have hstore : infiniteRateStore
      = [("USD_RUB", { rate := JSNum.inf false,
                       history := [{ rate := JSNum.inf false,
                                     date := "2024-05-01T09:00:00.000Z" }] })] := by
    decide
  have hdirect : getExchangeRate infiniteRateStore "USD" "RUB" = JSNum.inf false := by
    rw [hstore]
    decide
  have hreverse : getExchangeRate infiniteRateStore "RUB" "USD" = JSNum.fin 0 := by
    rw [hstore]
    simp [getExchangeRate, lookupKey, rateKey, JSNum.div, JSNum.divNum, JSNum.toNumber]
  refine ⟨by decide, ?_, ?_, hdirect, hreverse, ?_, ?_⟩
  · rw [hstore]
    decide
  · rw [hstore]
    decide
  · rw [hdirect, hreverse]
    simp [JSNum.mul, JSNum.mulNum, JSNum.toNumber]
  · rw [hdirect, hreverse]
    simp [JSNum.div, JSNum.divNum, JSNum.toNumber]

/-- C18 (amended): for distinct codes, when at most one of the two
orientations has a record and the rate of that record is a finite number
other than zero, the product of the two resolutions is `1` and an amount
divided by the one and then by the other is the amount again (finite numbers
being exact). -/
theorem reciprocal_consistency (exchangeRates : RateStore) (a b : String) (hab : a ≠ b)
    (hone : ¬ ((lookupKey exchangeRates (rateKey a b)).isSome = true ∧
               (lookupKey exchangeRates (rateKey b a)).isSome = true))
    (hrate : ∀ rec : RateRecord,
      (lookupKey exchangeRates (rateKey a b) = some rec ∨
        lookupKey exchangeRates (rateKey b a) = some rec) →
      ∃ q : ℚ, rec.rate = JSNum.fin q ∧ q ≠ 0) :
    JSNum.mul (getExchangeRate exchangeRates a b) (getExchangeRate exchangeRates b a)
      = JSNum.fin 1 ∧
    ∀ x : ℚ,
      JSNum.div (JSNum.div (JSNum.fin x) (getExchangeRate exchangeRates a b))
          (getExchangeRate exchangeRates b a)
        = JSNum.fin x := by
  have hba : ¬ b = a := fun h => hab h.symm
  cases hdirect : lookupKey exchangeRates (rateKey a b) with
  | some rec =>
    obtain ⟨q, hq, hne⟩ := hrate rec (Or.inl hdirect)
    have hreverse : lookupKey exchangeRates (rateKey b a) = none := by
      cases hrev : lookupKey exchangeRates (rateKey b a) with
      | none => rfl
      | some other => exact absurd ⟨by simp [hdirect], by simp [hrev]⟩ hone
    have h1 : getExchangeRate exchangeRates a b = JSNum.fin q := by
      simp [getExchangeRate, hab, hdirect, hq]
    have h2 : getExchangeRate exchangeRates b a = JSNum.div (JSNum.fin 1) (JSNum.fin q) := by
      simp [getExchangeRate, hba, hdirect, hreverse, hq]
    rw [h1, h2]
    exact ⟨(reciprocal_product q hne).1, fun x => (there_and_back x q hne).1⟩
  | none =>
    cases hreverse : lookupKey exchangeRates (rateKey b a) with
    | some rec =>
      obtain ⟨q, hq, hne⟩ := hrate rec (Or.inr hreverse)
      have h1 : getExchangeRate exchangeRates a b = JSNum.div (JSNum.fin 1) (JSNum.fin q) := by
        simp [getExchangeRate, hab, hdirect, hreverse, hq]
      have h2 : getExchangeRate exchangeRates b a = JSNum.fin q := by
        simp [getExchangeRate, hba, hreverse, hq]
      rw [h1, h2]
      exact ⟨(reciprocal_product q hne).2, fun x => (there_and_back x q hne).2⟩
    | none =>
      have h1 : getExchangeRate exchangeRates a b = JSNum.fin 1 := by
        simp [getExchangeRate, hab, hdirect, hreverse]
      have h2 : getExchangeRate exchangeRates b a = JSNum.fin 1 := by
        simp [getExchangeRate, hba, hdirect, hreverse]
      rw [h1, h2]
      refine ⟨by simp [mul_fin_fin], fun x => ?_⟩
      simp [JSNum.div_fin_fin]

theorem dollarStore_rate (rec : RateRecord)
    (h : lookupKey dollarStore (rateKey "USD" "RUB") = some rec ∨
      lookupKey dollarStore (rateKey "RUB" "USD") = some rec) :
    ∃ q : ℚ, rec.rate = JSNum.fin q ∧ q ≠ 0 := by
  have hrev : lookupKey dollarStore (rateKey "RUB" "USD") = none := by decide
  rcases h with h | h
  · simp only [dollarStore, lookupKey, rateKey] at h
    simp only [show ("USD_RUB" = "USD" ++ "_" ++ "RUB") from by decide, if_true,
      Option.some.injEq] at h
    subst h
    exact ⟨1 / 2, rfl, by norm_num⟩
  · rw [hrev] at h
    exact absurd h (by simp)

/-- C18 (amended) on the store whose only record gives half a rouble for one
dollar. -/
theorem reciprocal_consistency_witness :
    "USD" ≠ "RUB" ∧
    ¬ ((lookupKey dollarStore (rateKey "USD" "RUB")).isSome = true ∧
       (lookupKey dollarStore (rateKey "RUB" "USD")).isSome = true) ∧
    JSNum.mul (getExchangeRate dollarStore "USD" "RUB") (getExchangeRate dollarStore "RUB" "USD")
      = JSNum.fin 1 ∧
    ∀ x : ℚ,
      JSNum.div (JSNum.div (JSNum.fin x) (getExchangeRate dollarStore "USD" "RUB"))
          (getExchangeRate dollarStore "RUB" "USD")
        = JSNum.fin x :=
  ⟨by decide, by decide,
    reciprocal_consistency dollarStore "USD" "RUB" (by decide) (by decide) dollarStore_rate⟩

/-! ## Numbers written in decimal -/

theorem digitChar_injective :
    ∀ a : Fin 10, ∀ b : Fin 10, Nat.digitChar a = Nat.digitChar b → a = b := by
  decide

theorem digitChar_not_separator :
    ∀ a : Fin 10, Nat.digitChar a ≠ '.' ∧ Nat.digitChar a ≠ '-' := by
  decide

theorem map_digitChar_injective (xs ys : List Nat) (hx : ∀ d ∈ xs, d < 10)
    (hy : ∀ d ∈ ys, d < 10) (h : xs.map Nat.digitChar = ys.map Nat.digitChar) : xs = ys := by
  induction xs generalizing ys with
  | nil =>
    cases ys with
    | nil => rfl
    | cons y rest => simp at h
  | cons x rest ih =>
    cases ys with
    | nil => simp at h
    | cons y more =>
      simp only [List.map_cons, List.cons.injEq] at h
      have hxlt := hx x (List.mem_cons_self x rest)
      have hylt := hy y (List.mem_cons_self y more)
      have hxy : x = y := by
        have := digitChar_injective ⟨x, hxlt⟩ ⟨y, hylt⟩ h.1
        exact congrArg Fin.val this
      rw [hxy, ih more (fun d hd => hx d (List.mem_cons_of_mem x hd))
        (fun d hd => hy d (List.mem_cons_of_mem y hd)) h.2]

theorem toDigitsCore_eq_digits (fuel : Nat) :
    ∀ (n : Nat) (ds : List Char), n < fuel → 0 < n →
      Nat.toDigitsCore 10 fuel n ds = ((Nat.digits 10 n).reverse.map Nat.digitChar) ++ ds := by
  induction fuel with
  | zero =>
    intro n ds hfuel
    exact absurd hfuel (Nat.not_lt_zero n)
  | succ fuel ih =>
    intro n ds hfuel hn
    unfold Nat.toDigitsCore
    by_cases hsmall : n / 10 = 0
    · have hlt : n < 10 := by omega
      have hmod : n % 10 = n := Nat.mod_eq_of_lt hlt
      simp only [hsmall, if_true, hmod]
      rw [Nat.digits_of_lt 10 n (by omega) hlt]
      rfl
    · simp only [hsmall, if_false]
      rw [ih (n / 10) _ (by omega) (by omega)]
      rw [Nat.digits_def' (by norm_num : 1 < 10) hn]
      simp

theorem repr_data_of_pos (n : Nat) (hn : 0 < n) :
    (Nat.repr n).data = (Nat.digits 10 n).reverse.map Nat.digitChar := by
  show Nat.toDigitsCore 10 (n + 1) n [] = _
  rw [toDigitsCore_eq_digits (n + 1) n [] (by omega) hn]
  simp

theorem repr_data_zero : (Nat.repr 0).data = ['0'] := by decide

/-- The text of a number consists of the characters of a list of digits below
ten from which the number is recovered. -/
theorem repr_data_digits (n : Nat) :
    ∃ ds : List Nat, (∀ d ∈ ds, d < 10) ∧ ds ≠ [] ∧ Nat.ofDigits 10 ds.reverse = n ∧
      (Nat.repr n).data = ds.map Nat.digitChar := by
  by_cases hn : n = 0
  · subst hn
    exact ⟨[0], by simp, by simp, by simp [Nat.ofDigits], repr_data_zero⟩
  · refine ⟨(Nat.digits 10 n).reverse, ?_, ?_, ?_, ?_⟩
    · intro d hd
      exact Nat.digits_lt_base (by norm_num) (List.mem_reverse.mp hd)
    · simpa using Nat.digits_ne_nil_iff_ne_zero.mpr hn
    · rw [List.reverse_reverse, Nat.ofDigits_digits]
    · exact repr_data_of_pos n (by omega)

theorem repr_injective (n m : Nat) (h : Nat.repr n = Nat.repr m) : n = m := by
  obtain ⟨xs, hx, _, hxn, hxdata⟩ := repr_data_digits n
  obtain ⟨ys, hy, _, hym, hydata⟩ := repr_data_digits m
  have hdata : xs.map Nat.digitChar = ys.map Nat.digitChar := by
    rw [← hxdata, ← hydata, h]
  have hlist := map_digitChar_injective xs ys hx hy hdata
  rw [← hxn, ← hym, hlist]

theorem repr_no_separator (n : Nat) : '.' ∉ (Nat.repr n).data ∧ '-' ∉ (Nat.repr n).data := by
  obtain ⟨xs, hx, _, _, hxdata⟩ := repr_data_digits n
  rw [hxdata]
  constructor
  · intro hmem
    obtain ⟨d, hd, hchar⟩ := List.mem_map.mp hmem
    exact (digitChar_not_separator ⟨d, hx d hd⟩).1 hchar
  · intro hmem
    obtain ⟨d, hd, hchar⟩ := List.mem_map.mp hmem
    exact (digitChar_not_separator ⟨d, hx d hd⟩).2 hchar

theorem repr_data_ne_nil (n : Nat) : (Nat.repr n).data ≠ [] := by
  obtain ⟨xs, _, hne, _, hxdata⟩ := repr_data_digits n
  rw [hxdata]
  simpa using hne

theorem numberText_injective (i j : Int) (h : numberText i = numberText j) : i = j := by
  have hdata := congrArg String.data h
  unfold numberText at hdata
  by_cases hi : i < 0 <;> by_cases hj : j < 0
  · simp only [hi, hj, if_true, String.data_append, List.append_cancel_left_eq] at hdata
    have := repr_injective _ _ (String.ext hdata)
    omega
  · simp only [hi, hj, if_true, if_false, String.data_append] at hdata
    have hmem : '-' ∈ (Nat.repr j.natAbs).data := by
      rw [← hdata]
      exact List.mem_append_left _ (by decide)
    exact absurd hmem (repr_no_separator _).2
  · simp only [hi, hj, if_true, if_false, String.data_append] at hdata
    have hmem : '-' ∈ (Nat.repr i.natAbs).data := by
      rw [hdata]
      exact List.mem_append_left _ (by decide)
    exact absurd hmem (repr_no_separator _).2
  · simp only [hi, hj, if_false] at hdata
    have := repr_injective _ _ (String.ext hdata)
    omega

theorem split_at_separator (xs ys rest more : List Char) (hx : '.' ∉ xs) (hy : '.' ∉ ys)
    (h : xs ++ '.' :: rest = ys ++ '.' :: more) : xs = ys ∧ rest = more := by
  induction xs generalizing ys with
  | nil =>
    cases ys with
    | nil => simpa using h
    | cons y tail =>
      simp only [List.nil_append, List.cons_append, List.cons.injEq] at h
      exact absurd (h.1 ▸ List.mem_cons_self _ _) hy
  | cons x tail ih =>
    cases ys with
    | nil =>
      simp only [List.nil_append, List.cons_append, List.cons.injEq] at h
      exact absurd (h.1 ▸ List.mem_cons_self _ _) hx
    | cons y others =>
      simp only [List.cons_append, List.cons.injEq] at h
      obtain ⟨hrec, hrest⟩ := ih others (fun hm => hx (List.mem_cons_of_mem _ hm))
        (fun hm => hy (List.mem_cons_of_mem _ hm)) h.2
      exact ⟨by rw [h.1, hrec], hrest⟩

/-- Two valid dates get the same label exactly when they fall on the same
calendar day. -/
theorem formatDate_eq_iff (api : DateApi) (d1 d2 : String) (t1 t2 : Int)
    (h1 : api.getTime d1 = some t1) (h2 : api.getTime d2 = some t2) :
    formatDate api d1 = formatDate api d2 ↔ api.calendarDay t1 = api.calendarDay t2 := by
  constructor
  · intro h
    have hdata := congrArg String.data h
    simp only [formatDate, h1, h2, String.data_append, List.append_assoc] at hdata
    simp only [List.singleton_append] at hdata
    obtain ⟨hday, hrest⟩ := split_at_separator _ _ _ _ (repr_no_separator _).1
      (repr_no_separator _).1 hdata
    obtain ⟨hmonth, hyear⟩ := split_at_separator _ _ _ _ (repr_no_separator _).1
      (repr_no_separator _).1 hrest
    have hd := repr_injective _ _ (String.ext hday)
    have hm := repr_injective _ _ (String.ext hmonth)
    have hy := numberText_injective _ _ (String.ext hyear)
    cases hc1 : api.calendarDay t1
    cases hc2 : api.calendarDay t2
    simp only [hc1, hc2] at hd hm hy
    simp only [CalendarDay.mk.injEq]
    omega
  · intro h
    simp only [formatDate, h1, h2, h]

/-! ## The grouping `reduce` -/

theorem addToGroup_keys (groups : Groups) (date : String) (expense : Expense) :
    (addToGroup groups date expense).map Prod.fst =
      if date ∈ groups.map Prod.fst then groups.map Prod.fst
      else groups.map Prod.fst ++ [date] := by
  induction groups with
  | nil => simp [addToGroup]
  | cons p rest ih =>
    obtain ⟨k, v⟩ := p
    by_cases hk : k = date
    · subst hk
      simp [addToGroup]
    · have hne : ¬ date = k := fun h => hk h.symm
      simp only [addToGroup, hk, if_false, List.map_cons, ih, List.mem_cons, hne, false_or]
      split_ifs <;> simp

theorem addToGroup_nodup (groups : Groups) (date : String) (expense : Expense)
    (h : (groups.map Prod.fst).Nodup) : ((addToGroup groups date expense).map Prod.fst).Nodup := by
  rw [addToGroup_keys]
  split_ifs with hmem
  · exact h
  · exact List.Nodup.append h (List.nodup_singleton date) (by simpa using hmem)

theorem lookupGroup_addToGroup (groups : Groups) (date key : String) (expense : Expense) :
    lookupGroup (addToGroup groups date expense) key =
      if date = key then some ((lookupGroup groups date).getD [] ++ [expense])
      else lookupGroup groups key := by
  induction groups with
  | nil => simp [addToGroup, lookupGroup]
  | cons p rest ih =>
    obtain ⟨k, v⟩ := p
    by_cases hk : k = date
    · subst hk
      by_cases hkey : k = key <;> simp [addToGroup, lookupGroup, hkey]
    · by_cases hkey : k = key
      · subst hkey
        have hne : ¬ date = k := fun h => hk h.symm
        simp [addToGroup, lookupGroup, hk, hne]
      · simp only [addToGroup, lookupGroup, hk, hkey, if_false, ih]

theorem lookupGroup_eq_some_iff (groups : Groups) (h : (groups.map Prod.fst).Nodup)
    (key : String) (entries : List Expense) :
    lookupGroup groups key = some entries ↔ (key, entries) ∈ groups := by
  induction groups with
  | nil => simp [lookupGroup]
  | cons p rest ih =>
    obtain ⟨k, v⟩ := p
    simp only [List.map_cons, List.nodup_cons] at h
    by_cases hk : k = key
    · subst hk
      simp only [lookupGroup, if_true, Option.some.injEq, List.mem_cons, Prod.mk.injEq, true_and]
      constructor
      · intro hv
        exact Or.inl hv.symm
      · rintro (hv | hmem)
        · exact hv.symm
        · exact absurd (List.mem_map.mpr ⟨(k, entries), hmem, rfl⟩) h.1
    · have hne : ¬ key = k := fun hh => hk hh.symm
      simp only [lookupGroup, hk, if_false, ih h.2, List.mem_cons, Prod.mk.injEq, hne,
        false_and, false_or]

/-- The object built by the `reduce`, for any labelling of the expenses: the
keys are distinct, and under each label stand the expenses with that label,
in ledger order. -/
theorem fold_addToGroup (label : Expense → String) (expenses : List Expense) :
    ((expenses.foldl (fun groups expense => addToGroup groups (label expense) expense)
        []).map Prod.fst).Nodup ∧
    ∀ key : String,
      lookupGroup
          (expenses.foldl (fun groups expense => addToGroup groups (label expense) expense) [])
          key
        = if expenses.filter (fun e => decide (label e = key)) = [] then none
          else some (expenses.filter (fun e => decide (label e = key))) := by
  induction expenses using List.reverseRecOn with
  | nil => simp [lookupGroup]
  | append_singleton init last ih =>
    simp only [List.foldl_append, List.foldl_cons, List.foldl_nil]
    refine ⟨addToGroup_nodup _ _ _ ih.1, ?_⟩
    intro key
    rw [lookupGroup_addToGroup]
    by_cases hkey : label last = key
    · subst hkey
      have hfilter : (init ++ [last]).filter (fun e => decide (label e = label last))
          = init.filter (fun e => decide (label e = label last)) ++ [last] := by
        simp [List.filter_append]
      rw [if_pos rfl, ih.2, hfilter]
      by_cases hempty : init.filter (fun e => decide (label e = label last)) = []
      · simp [hempty]
      · simp [hempty]
    · have hfilter : (init ++ [last]).filter (fun e => decide (label e = key))
          = init.filter (fun e => decide (label e = key)) := by
        simp [List.filter_append, hkey]
      rw [if_neg hkey, ih.2, hfilter]

theorem groups_of_fold (label : Expense → String) (expenses : List Expense) (key : String)
    (entries : List Expense)
    (h : (key, entries) ∈
      expenses.foldl (fun groups expense => addToGroup groups (label expense) expense) []) :
    entries = expenses.filter (fun e => decide (label e = key)) ∧ entries ≠ [] := by
  obtain ⟨hnodup, hlookup⟩ := fold_addToGroup label expenses
  have hsome := (lookupGroup_eq_some_iff _ hnodup key entries).mpr h
  rw [hlookup key] at hsome
  split_ifs at hsome with hempty
  simp only [Option.some.injEq] at hsome
  exact ⟨hsome.symm, by rw [← hsome]; exact hempty⟩

theorem label_in_fold (label : Expense → String) (expenses : List Expense) (e : Expense)
    (he : e ∈ expenses) :
    (label e, expenses.filter (fun x => decide (label x = label e))) ∈
      expenses.foldl (fun groups expense => addToGroup groups (label expense) expense) [] := by
  obtain ⟨hnodup, hlookup⟩ := fold_addToGroup label expenses
  apply (lookupGroup_eq_some_iff _ hnodup _ _).mp
  rw [hlookup]
  have hmem : e ∈ expenses.filter (fun x => decide (label x = label e)) := by
    simp [List.mem_filter, he]
  have hne : expenses.filter (fun x => decide (label x = label e)) ≠ [] :=
    List.ne_nil_of_mem hmem
  simp [hne]

/-! ## Sorting the groups -/

theorem orderedInsert_congr {α : Type} (r q : α → α → Prop) [DecidableRel r] [DecidableRel q]
    (a : α) (l : List α) (h : ∀ b ∈ l, (r a b ↔ q a b)) :
    l.orderedInsert r a = l.orderedInsert q a := by
  induction l with
  | nil => rfl
  | cons b rest ih =>
    have hb := h b (List.mem_cons_self b rest)
    have hrest := ih (fun x hx => h x (List.mem_cons_of_mem b hx))
    by_cases hr : r a b
    · have hq : q a b := hb.mp hr
      simp [List.orderedInsert, hr, hq]
    · have hq : ¬ q a b := fun hq => hr (hb.mpr hq)
      simp [List.orderedInsert, hr, hq, hrest]

theorem insertionSort_congr {α : Type} (r q : α → α → Prop) [DecidableRel r] [DecidableRel q]
    (l : List α) (h : ∀ a ∈ l, ∀ b ∈ l, (r a b ↔ q a b)) :
    l.insertionSort r = l.insertionSort q := by
  induction l with
  | nil => rfl
  | cons a rest ih =>
    have hrest := ih (fun x hx y hy =>
      h x (List.mem_cons_of_mem a hx) y (List.mem_cons_of_mem a hy))
    simp only [List.insertionSort, hrest]
    apply orderedInsert_congr
    intro b hb
    have hb' : b ∈ rest := (List.mem_insertionSort q).mp hb
    exact h a (List.mem_cons_self a rest) b (List.mem_cons_of_mem a hb')

/-! ## Groups of the `App` component -/

theorem before_or_before (a b : CalendarDay) (h : a ≠ b) : a.before b ∨ b.before a := by
  obtain ⟨ya, ma, da⟩ := a
  obtain ⟨yb, mb, db⟩ := b
  simp only [ne_eq, CalendarDay.mk.injEq] at h
  simp only [CalendarDay.before]
  omega

theorem valid_time (api : DateApi) (expenses : List Expense) (hvalid : validDates api expenses)
    (e : Expense) (he : e ∈ expenses) : api.getTime e.date = some (timeOf api e) := by
  have h := hvalid e he
  unfold timeOf
  cases hget : api.getTime e.date with
  | none => simp [hget] at h
  | some t => rfl

theorem label_eq_iff_day (api : DateApi) (expenses : List Expense)
    (hvalid : validDates api expenses) (e1 e2 : Expense) (h1 : e1 ∈ expenses)
    (h2 : e2 ∈ expenses) :
    formatDate api e1.date = formatDate api e2.date ↔ dayOf api e1 = dayOf api e2 :=
  formatDate_eq_iff api e1.date e2.date _ _ (valid_time api expenses hvalid e1 h1)
    (valid_time api expenses hvalid e2 h2)

theorem unsorted_group (api : DateApi) (expenses : List Expense) (g : DateGroup)
    (hg : g ∈ (groupedExpenses api expenses).map
      (fun p => ({ date := p.1, data := p.2 } : DateGroup))) :
    g.data = expenses.filter (fun e => decide (formatDate api e.date = g.date)) ∧ g.data ≠ [] := by
  obtain ⟨p, hp, hpg⟩ := List.mem_map.mp hg
  subst hpg
  exact groups_of_fold (fun e => formatDate api e.date) expenses p.1 p.2 hp

theorem firstTime_of_group (api : DateApi) (expenses : List Expense)
    (hvalid : validDates api expenses) (g : DateGroup)
    (hdata : g.data = expenses.filter (fun e => decide (formatDate api e.date = g.date)))
    (hne : g.data ≠ []) :
    ∃ first : Expense, first ∈ expenses ∧ first ∈ g.data ∧
      formatDate api first.date = g.date ∧ firstTime api g = some (timeOf api first) := by
  cases hcase : g.data with
  | nil => exact absurd hcase hne
  | cons first rest =>
    have hmem : first ∈ g.data := by
      rw [hcase]
      exact List.mem_cons_self first rest
    have hfilter := hmem
    rw [hdata, List.mem_filter] at hfilter
    refine ⟨first, hfilter.1, by rw [← hcase]; exact hmem, by simpa using hfilter.2, ?_⟩
    simp only [firstTime, hcase]
    exact valid_time api expenses hvalid first hfilter.1

theorem notAfter_iff_laterFirst (api : DateApi) (a b : DateGroup) (ta tb : Int)
    (ha : firstTime api a = some ta) (hb : firstTime api b = some tb) :
    notAfter api a b ↔ laterFirst api a b := by
  simp only [notAfter, compareGroups, laterFirst, ha, hb, Option.getD_some]
  omega

theorem sorted_groups (api : DateApi) (expenses : List Expense)
    (hvalid : validDates api expenses) :
    (groupedExpensesArray api expenses).Pairwise (laterFirst api) := by
  have hcongr :
      groupedExpensesArray api expenses
        = ((groupedExpenses api expenses).map
            (fun p => ({ date := p.1, data := p.2 } : DateGroup))).insertionSort
              (laterFirst api) := by
    unfold groupedExpensesArray
    apply insertionSort_congr
    intro a ha b hb
    obtain ⟨hda, hna⟩ := unsorted_group api expenses a ha
    obtain ⟨hdb, hnb⟩ := unsorted_group api expenses b hb
    obtain ⟨_, _, _, _, hta⟩ := firstTime_of_group api expenses hvalid a hda hna
    obtain ⟨_, _, _, _, htb⟩ := firstTime_of_group api expenses hvalid b hdb hnb
    exact notAfter_iff_laterFirst api a b _ _ hta htb
  rw [hcongr]
  exact List.sorted_insertionSort (laterFirst api) _

theorem sorted_group (api : DateApi) (expenses : List Expense) (g : DateGroup)
    (hg : g ∈ groupedExpensesArray api expenses) :
    g.data = expenses.filter (fun e => decide (formatDate api e.date = g.date)) ∧ g.data ≠ [] :=
  unsorted_group api expenses g ((List.mem_insertionSort (notAfter api)).mp hg)

theorem sorted_labels_nodup (api : DateApi) (expenses : List Expense) :
    ((groupedExpensesArray api expenses).map DateGroup.date).Nodup := by
  have hperm := (List.perm_insertionSort (notAfter api)
    ((groupedExpenses api expenses).map
      (fun p => ({ date := p.1, data := p.2 } : DateGroup)))).map DateGroup.date
  refine (List.Perm.nodup_iff hperm).mpr ?_
  have hkeys := (fold_addToGroup (fun e => formatDate api e.date) expenses).1
  simpa [groupedExpenses, List.map_map, Function.comp] using hkeys

/-- C12: for every ledger of valid dates, on a platform where a later instant
never falls on an earlier calendar day, the groups of `App` carry distinct
labels; each group is not empty and holds, in ledger order, the expenses with
its label; every expense is in a group; two expenses are in the same group
exactly when they fall on the same calendar day; and the groups stand in
strictly descending order of calendar day. -/
theorem groupedExpensesArray_by_day (api : DateApi) (expenses : List Expense)
    (hvalid : validDates api expenses) (hmono : calendarMonotoneOn api expenses) :
    ((groupedExpensesArray api expenses).map DateGroup.date).Nodup ∧
    (∀ g ∈ groupedExpensesArray api expenses,
      g.data ≠ [] ∧
      g.data = expenses.filter (fun e => decide (formatDate api e.date = g.date))) ∧
    (∀ e ∈ expenses, ∃ g ∈ groupedExpensesArray api expenses, e ∈ g.data) ∧
    (∀ g ∈ groupedExpensesArray api expenses, ∀ h ∈ groupedExpensesArray api expenses,
      ∀ e ∈ g.data, ∀ f ∈ h.data, (g = h ↔ dayOf api e = dayOf api f)) ∧
    (groupedExpensesArray api expenses).Pairwise
      (fun g h => ∀ e ∈ g.data, ∀ f ∈ h.data, (dayOf api f).before (dayOf api e)) := by
  have hmember : ∀ g ∈ groupedExpensesArray api expenses, ∀ e ∈ g.data,
      e ∈ expenses ∧ formatDate api e.date = g.date := by
    intro g hg e he
    rw [(sorted_group api expenses g hg).1, List.mem_filter] at he
    exact ⟨he.1, by simpa using he.2⟩
  refine ⟨sorted_labels_nodup api expenses, ?_, ?_, ?_, ?_⟩
  · intro g hg
    exact ⟨(sorted_group api expenses g hg).2, (sorted_group api expenses g hg).1⟩
  · intro e he
    have hin := label_in_fold (fun x => formatDate api x.date) expenses e he
    refine ⟨{ date := formatDate api e.date,
              data := expenses.filter
                (fun x => decide (formatDate api x.date = formatDate api e.date)) }, ?_, ?_⟩
    · apply (List.mem_insertionSort (notAfter api)).mpr
      exact List.mem_map.mpr ⟨_, hin, rfl⟩
    · simp [List.mem_filter, he]
  · intro g hg h hh e he f hf
    obtain ⟨heIn, heLabel⟩ := hmember g hg e he
    obtain ⟨hfIn, hfLabel⟩ := hmember h hh f hf
    rw [← label_eq_iff_day api expenses hvalid e f heIn hfIn, heLabel, hfLabel]
    constructor
    · intro hgh
      rw [hgh]
    · intro hdate
      have hgd := (sorted_group api expenses g hg).1
      have hhd := (sorted_group api expenses h hh).1
      cases g
      cases h
      simp only at hdate hgd hhd
      subst hdate
      rw [hgd, hhd]
  · have hsorted := sorted_groups api expenses hvalid
    have hdistinct : (groupedExpensesArray api expenses).Pairwise
        (fun g h => g.date ≠ h.date) :=
      List.pairwise_map.mp (sorted_labels_nodup api expenses)
    refine List.Pairwise.imp_of_mem ?_ (hsorted.and hdistinct)
    intro g h hg hh hrel e he f hf
    obtain ⟨hlater, hne⟩ := hrel
    obtain ⟨heIn, heLabel⟩ := hmember g hg e he
    obtain ⟨hfIn, hfLabel⟩ := hmember h hh f hf
    obtain ⟨eg, hegIn, _, hegLabel, hegTime⟩ := firstTime_of_group api expenses hvalid g
      (sorted_group api expenses g hg).1 (sorted_group api expenses g hg).2
    obtain ⟨eh, hehIn, _, hehLabel, hehTime⟩ := firstTime_of_group api expenses hvalid h
      (sorted_group api expenses h hh).1 (sorted_group api expenses h hh).2
    have hde : dayOf api e = dayOf api eg :=
      (label_eq_iff_day api expenses hvalid e eg heIn hegIn).mp (by rw [heLabel, hegLabel])
    have hdf : dayOf api f = dayOf api eh :=
      (label_eq_iff_day api expenses hvalid f eh hfIn hehIn).mp (by rw [hfLabel, hehLabel])
    have htime : timeOf api eh ≤ timeOf api eg := by
      simpa [laterFirst, hegTime, hehTime] using hlater
    have hnot := hmono eh hehIn eg hegIn htime
    have hdays : dayOf api eg ≠ dayOf api eh := by
      intro hsame
      apply hne
      rw [← hegLabel, ← hehLabel]
      exact (label_eq_iff_day api expenses hvalid eg eh hegIn hehIn).mpr hsame
    rw [hde, hdf]
    rcases before_or_before _ _ hdays with hb | hb
    · exact absurd hb hnot
    · exact hb

/-- C12 on a ledger with one expense on 1 May 2024 followed by two on 2 May
2024, for a device set to UTC: the group of 2 May comes first. -/
theorem groupedExpensesArray_by_day_witness :
    validDates utcApi mayLedger ∧ calendarMonotoneOn utcApi mayLedger ∧
    (groupedExpensesArray utcApi mayLedger).map DateGroup.date = ["2.5.2024", "1.5.2024"] ∧
    ((groupedExpensesArray utcApi mayLedger).map DateGroup.date).Nodup ∧
    (∀ g ∈ groupedExpensesArray utcApi mayLedger,
      g.data ≠ [] ∧
      g.data = mayLedger.filter (fun e => decide (formatDate utcApi e.date = g.date))) ∧
    (∀ e ∈ mayLedger, ∃ g ∈ groupedExpensesArray utcApi mayLedger, e ∈ g.data) ∧
    (∀ g ∈ groupedExpensesArray utcApi mayLedger, ∀ h ∈ groupedExpensesArray utcApi mayLedger,
      ∀ e ∈ g.data, ∀ f ∈ h.data, (g = h ↔ dayOf utcApi e = dayOf utcApi f)) ∧
    (groupedExpensesArray utcApi mayLedger).Pairwise
      (fun g h => ∀ e ∈ g.data, ∀ f ∈ h.data, (dayOf utcApi f).before (dayOf utcApi e)) :=
  ⟨by decide, by decide, by decide,
    groupedExpensesArray_by_day utcApi mayLedger (by decide) (by decide)⟩

/-! ## Groups of the `ExpenseList` component -/

/-- C17 (evaluation at the failing input): the ledger holds one expense on
1 May 2024 and two on 2 May 2024.  The `formatDate` of `ExpenseList` gives
every date the same label, the text of its return statement, so the three
expenses land in one group although they fall on two calendar days, which
the `formatDate` of `App` labels `1.5.2024` and `2.5.2024`. -/
theorem expenseList_one_group_for_two_days :
    (∀ d1 d2 : String, ExpenseList.formatDate d1 = ExpenseList.formatDate d2) ∧
    mayLedger.map (fun e => formatDate utcApi e.date) = ["1.5.2024", "2.5.2024", "2.5.2024"] ∧
    mayLedger.map (fun e => dayOf utcApi e)
      = [{ year := 2024, month := 4, day := 1 }, { year := 2024, month := 4, day := 2 },
         { year := 2024, month := 4, day := 2 }] ∧
    ExpenseList.groupedExpensesArray utcApi mayLedger
      = [{ date := "$\x7bdate.getDate()\x7d.$\x7bdate.getMonth() + 1\x7d.$\x7bdate.getFullYear()\x7d",
           expenses := mayLedger }] := by
  refine ⟨fun _ _ => rfl, by decide, by decide, by decide⟩

end MoneyTracker
